import Mathlib

/-!
# able-timestamps: timestamp conversion and chapter extraction

A shallow embedding of `src/able-timestamps.js`:

* `convertTimeStampToSeconds` (source lines 9-21),
* `titlesToTimestamps` (source lines 44-63),
* `chaptersToTimestamps` (source lines 85-105),

together with the part of the ECMAScript regular expression semantics that these
three functions rely on (backtracking matching with capture groups, the unanchored
search of `String.prototype.match`, and its global variant).

JavaScript strings are sequences of UTF-16 code units; they are modelled as lists of
natural numbers, one number per code unit.
-/

namespace AbleTimestamps

/-! ## Strings -/

/-- One UTF-16 code unit of a JavaScript string. -/
abbrev CodeUnit := Nat

/-- A JavaScript string: the list of its UTF-16 code units. -/
abbrev JSString := List CodeUnit

/-- UTF-16 encoding of one Unicode scalar value. -/
def utf16Char (c : Char) : JSString :=
  if c.toNat < 65536 then [c.toNat]
  else [55296 + (c.toNat - 65536) / 1024, 56320 + (c.toNat - 65536) % 1024]

/-- The JavaScript string written by a Lean string literal. -/
def js (s : String) : JSString :=
  s.toList.flatMap utf16Char

/-! ## Regular expressions

Only the constructs that occur in the regular expression literals of the source are
embedded: single-character atoms, concatenation, the greedy optional `?`, the greedy
star applied to a single-character atom (the source only has `.*`), and capturing
groups. -/

/-- The atom `\d` (no unicode flag): the ASCII digits `0`-`9`. -/
def isDigit (c : CodeUnit) : Bool :=
  decide (48 ≤ c) && decide (c ≤ 57)

/-- LineTerminator code units: LF, CR, LS, PS. -/
def isLineTerminator (c : CodeUnit) : Bool :=
  c == 10 || c == 13 || c == 8232 || c == 8233

/-- Single-character atoms. -/
inductive Atom
  /-- a literal code unit, e.g. the pattern characters `:`, `\.`, `\n`, `\-` -/
  | lit (c : CodeUnit)
  /-- the class `\d` -/
  | digit
  /-- the dot: any code unit except a line terminator -/
  | dot
  deriving DecidableEq, Repr

/-- Whether an atom accepts a code unit. -/
def Atom.accepts : Atom → CodeUnit → Bool
  | .lit c, x => x == c
  | .digit, x => isDigit x
  | .dot, x => !isLineTerminator x

/-- Regular expression syntax. -/
inductive Regex
  /-- one single-character atom -/
  | atom (a : Atom)
  /-- concatenation -/
  | seq (r₁ r₂ : Regex)
  /-- greedy optional non-capturing group, written `(?:r)?` -/
  | opt (r : Regex)
  /-- greedy star of an atom, written `a*` -/
  | star (a : Atom)
  /-- capturing group number `i`, written `(r)` -/
  | group (i : Nat) (r : Regex)
  deriving DecidableEq, Repr

/-- Number of capturing groups of a pattern. -/
def Regex.groupCount : Regex → Nat
  | .atom _ => 0
  | .seq r₁ r₂ => r₁.groupCount + r₂.groupCount
  | .opt r => r.groupCount
  | .star _ => 0
  | .group _ r => r.groupCount + 1

/-- Matcher state: the input that is still unread and the captures recorded so far
(most recent first). -/
structure MState where
  rest : JSString
  caps : List (Nat × JSString)
  deriving DecidableEq, Repr

/-- Greedy star of an atom with continuation `k`: read as many accepted code units as
possible, and give back one at a time while the continuation fails. -/
def starRun (a : Atom) (caps : List (Nat × JSString)) (k : MState → Option MState) :
    JSString → Option MState
  | [] => k ⟨[], caps⟩
  | c :: cs =>
    if a.accepts c then
      match starRun a caps k cs with
      | some st => some st
      | none => k ⟨c :: cs, caps⟩
    else k ⟨c :: cs, caps⟩

/-- Backtracking matcher in continuation-passing style: `run r st k` matches `r` at
the front of `st.rest` and hands the state after the match to `k`; alternatives are
tried in the priority order of the ECMAScript semantics, and the first one on which
the continuation succeeds wins. -/
def Regex.run : Regex → MState → (MState → Option MState) → Option MState
  | .atom a, st, k =>
    match st.rest with
    | [] => none
    | c :: cs => if a.accepts c then k ⟨cs, st.caps⟩ else none
  | .seq r₁ r₂, st, k => r₁.run st (fun st₁ => r₂.run st₁ k)
  | .opt r, st, k =>
    match r.run st k with
    | some st₁ => some st₁
    | none => k st
  | .star a, st, k => starRun a st.caps k st.rest
  | .group i r, st, k =>
    r.run st (fun st₁ =>
      k ⟨st₁.rest, (i, st.rest.take (st.rest.length - st₁.rest.length)) :: st₁.caps⟩)

/-- Value of capture `i`: `none` stands for `undefined`. -/
def capture (caps : List (Nat × JSString)) (i : Nat) : Option JSString :=
  (caps.find? (fun p => p.1 == i)).map (fun p => p.2)

/-- The match array of a successful match attempt on `input` that ended in state `st`:
element 0 is the matched substring, element `i` is capture `i` (`none` for
`undefined`); its length is one more than the number of groups. -/
def matchArray (r : Regex) (input : JSString) (st : MState) : List (Option JSString) :=
  some (input.take (input.length - st.rest.length)) ::
    (List.range r.groupCount).map (fun i => capture st.caps (i + 1))

/-- Leftmost match attempt: try to match at the first position, then at the second,
and so on up to and including the end of the input. Returns the number of code units
skipped before the match, and the final matcher state. -/
def Regex.search (r : Regex) : JSString → Option (Nat × MState)
  | [] => (r.run ⟨[], []⟩ some).map (fun st => (0, st))
  | c :: cs =>
    match r.run ⟨c :: cs, []⟩ some with
    | some st => some (0, st)
    | none => (r.search cs).map (fun p => (p.1 + 1, p.2))

/-- Method `String.prototype.match` with a pattern that has no `g` flag: the match
array of the leftmost match, or `none` (`null`) when there is no match. -/
def Regex.matchOnce (r : Regex) (input : JSString) : Option (List (Option JSString)) :=
  (r.search input).map (fun p => matchArray r (input.drop p.1) p.2)

/-- The loop of `String.prototype.match` with a `g` pattern: starting from `input`
(the text from `lastIndex` on), find the leftmost match, record the matched
substring, and continue behind it; after an empty match `lastIndex` is advanced by
one. `fuel` bounds the number of iterations. -/
def matchAllLoop (r : Regex) : Nat → JSString → List JSString
  | 0, _ => []
  | fuel + 1, input =>
    match r.search input with
    | none => []
    | some (skipped, st) =>
      let from_ := input.drop skipped
      let matched := from_.take (from_.length - st.rest.length)
      if matched.length = 0 then
        match st.rest with
        | [] => [matched]
        | _ :: tl => matched :: matchAllLoop r fuel tl
      else matched :: matchAllLoop r fuel st.rest

/-- Method `String.prototype.match` with a `g` pattern: the list of all matched
substrings, or `none` (`null`) when there is none. Every iteration of the loop
moves `lastIndex` forward, so `input.length + 1` iterations suffice. -/
def Regex.matchGlobal (r : Regex) (input : JSString) : Option (List JSString) :=
  match matchAllLoop r (input.length + 1) input with
  | [] => none
  | ms => some ms

/-! ## The program -/

/-- Exceptions thrown by the three functions. -/
inductive Failure
  /-- `new Error("Badly formatted timestamp: " + timestamp)` -/
  | badlyFormatted (timestamp : JSString)
  /-- `new Error("Transcript does not contain properly formatted chapters")` -/
  | noChapters
  /-- a `TypeError` raised by the runtime: property access on `null` or `undefined` -/
  | typeError
  deriving DecidableEq, Repr

deriving instance DecidableEq for Except

/-- Function `parseInt` on a string without leading white space, sign or `0x` prefix
(every argument in the source is a reversed `\d\d` capture): the value of the longest
prefix of decimal digits, `none` (`NaN`) when the string does not start with a digit. -/
def parseInt (s : JSString) : Option Nat :=
  match s.takeWhile isDigit with
  | [] => none
  | ds => some (ds.foldl (fun n d => 10 * n + (d - 48)) 0)

/-- `s.split('').reverse().join('')` -/
def reverseString (s : JSString) : JSString :=
  s.reverse

/-- Element `i` of a match array; `none` is `undefined`. -/
def nth (matchArr : List (Option JSString)) (i : Nat) : Option JSString :=
  (matchArr.get? i).join

/-- The pattern `(\d\d\d)\.(\d\d)\:(\d\d)(?::(\d\d))?` of source line 11. -/
def convertRegexp : Regex :=
  .seq (.group 1 (.seq (.atom .digit) (.seq (.atom .digit) (.atom .digit))))
  (.seq (.atom (.lit 46))
  (.seq (.group 2 (.seq (.atom .digit) (.atom .digit)))
  (.seq (.atom (.lit 58))
  (.seq (.group 3 (.seq (.atom .digit) (.atom .digit)))
  (.opt (.seq (.atom (.lit 58)) (.group 4 (.seq (.atom .digit) (.atom .digit)))))))))

/-- Source lines 9-21. A number is `none` when it is `NaN`. -/
def convertTimeStampToSeconds (timestamp : JSString) : Except Failure (Option Nat) :=
  let reversed := reverseString timestamp
  let regexp := convertRegexp
  match regexp.matchOnce reversed with
  | none => .error (.badlyFormatted timestamp)
  | some matchArr =>
    if matchArr.length < 3 then .error (.badlyFormatted timestamp)
    else
      match nth matchArr 2, nth matchArr 3 with
      | some m2, some m3 =>
        let s := reverseString m2
        let m := reverseString m3
        -- `matches[4] ? ... : 0`; the empty string is falsy, and `parseInt(0)` is 0
        let h : Option Nat :=
          match nth matchArr 4 with
          | none => some 0
          | some [] => some 0
          | some m4 => parseInt (reverseString m4)
        .ok (do
          let sv ← parseInt s
          let mv ← parseInt m
          let hv ← h
          pure (sv + mv * 60 + hv * 60 * 60))
      -- `undefined.split` raises a TypeError
      | _, _ => .error .typeError

/-- A chapter object `{ text, start, end }`. A `text` of `none` is `undefined`, a
number of `none` is `NaN`. -/
structure Chapter where
  text : Option JSString
  start : Option Nat
  end_ : Option Nat
  deriving DecidableEq, Repr

/-- The sub-pattern `(?:\d\d)?:\d\d:\d\d.\d\d\d` (the dot is not escaped), which
occurs twice in each pattern of source lines 45, 52, 86 and 93. -/
def stampPattern : Regex :=
  .seq (.opt (.seq (.atom .digit) (.atom .digit)))
  (.seq (.atom (.lit 58))
  (.seq (.atom .digit)
  (.seq (.atom .digit)
  (.seq (.atom (.lit 58))
  (.seq (.atom .digit)
  (.seq (.atom .digit)
  (.seq (.atom .dot)
  (.seq (.atom .digit)
  (.seq (.atom .digit) (.atom .digit))))))))))

/-- The sub-pattern ` \-\-\> ` (space, two hyphens, `>`, space). -/
def arrowPattern : Regex :=
  .seq (.atom (.lit 32))
  (.seq (.atom (.lit 45))
  (.seq (.atom (.lit 45))
  (.seq (.atom (.lit 62)) (.atom (.lit 32)))))

/-- The pattern `(.*)\n((?:\d\d)?:\d\d:\d\d.\d\d\d) \-\-\> ((?:\d\d)?:\d\d:\d\d.\d\d\d)`
of source lines 45 (with the `g` flag) and 52 (without). -/
def titlesRegexp : Regex :=
  .seq (.group 1 (.star .dot))
  (.seq (.atom (.lit 10))
  (.seq (.group 2 stampPattern)
  (.seq arrowPattern (.group 3 stampPattern))))

/-- The pattern `(?:\d\d)?:\d\d:\d\d.\d\d\d \-\-\> (?:\d\d)?:\d\d:\d\d.\d\d\d\n(?:.*)`
of source line 86 (with the `g` flag). -/
def chaptersRegexp : Regex :=
  .seq stampPattern
  (.seq arrowPattern
  (.seq stampPattern
  (.seq (.atom (.lit 10)) (.star .dot))))

/-- The pattern `((?:\d\d)?:\d\d:\d\d.\d\d\d) \-\-\> ((?:\d\d)?:\d\d:\d\d.\d\d\d)\n(.*)`
of source line 93. -/
def chaptersSubregexp : Regex :=
  .seq (.group 1 stampPattern)
  (.seq arrowPattern
  (.seq (.group 2 stampPattern)
  (.seq (.atom (.lit 10)) (.group 3 (.star .dot)))))

/-- A call `convertTimeStampToSeconds(x)` where `x` is an element of a match array:
on `undefined` the call `timestamp.split` raises a TypeError. -/
def convertCapture : Option JSString → Except Failure (Option Nat)
  | none => .error .typeError
  | some timestamp => convertTimeStampToSeconds timestamp

/-- The callback of source lines 51-60, returning the object it pushes. -/
def titlesCallback (m : JSString) : Except Failure Chapter :=
  let subregexp := titlesRegexp
  match subregexp.matchOnce m with
  -- `submatches[1]` with `submatches` null
  | none => .error .typeError
  | some submatches => do
    let text := nth submatches 1
    let start ← convertCapture (nth submatches 2)
    let end_ ← convertCapture (nth submatches 3)
    pure { text := text, start := start, end_ := end_ }

/-- Source lines 44-63. On line 49 the test is `!matches.length`, which raises a
TypeError when `matches` is `null`. -/
def titlesToTimestamps (transcript : JSString) : Except Failure (List Chapter) :=
  let regexp := titlesRegexp
  match regexp.matchGlobal transcript with
  | none => .error .typeError
  | some matchList =>
    if matchList.length = 0 then .error .noChapters
    else matchList.mapM titlesCallback

/-- The callback of source lines 92-102, returning the object it pushes. -/
def chaptersCallback (m : JSString) : Except Failure Chapter :=
  let subregexp := chaptersSubregexp
  match subregexp.matchOnce m with
  -- `submatches[3]` with `submatches` null
  | none => .error .typeError
  | some submatches => do
    let text := nth submatches 3
    let start ← convertCapture (nth submatches 1)
    let end_ ← convertCapture (nth submatches 2)
    pure { text := text, start := start, end_ := end_ }

/-- Source lines 85-105. On line 90 the test is `!matches`. -/
def chaptersToTimestamps (transcript : JSString) : Except Failure (List Chapter) :=
  let regexp := chaptersRegexp
  match regexp.matchGlobal transcript with
  | none => .error .noChapters
  | some matchList => matchList.mapM chaptersCallback

/-! ## Vocabulary of the specification -/

/-- Value of a group of two ASCII digits. -/
def twoDigits (a b : CodeUnit) : Nat :=
  10 * (a - 48) + (b - 48)

/-- Whether the input starts with code units accepted, one by one, by the given atoms. -/
def atomsAt : List Atom → JSString → Bool
  | [], _ => true
  | _ :: _, [] => false
  | a :: as, c :: cs => a.accepts c && atomsAt as cs

/-- The concatenation of one or more atoms. -/
def Regex.ofAtoms : Atom → List Atom → Regex
  | a, [] => .atom a
  | a, b :: bs => .seq (.atom a) (Regex.ofAtoms b bs)

/-- The input starts with `dd:dd.ddd` (`d` an ASCII digit). -/
def clockAt (s : JSString) : Bool :=
  atomsAt [.digit, .digit, .lit 58, .digit, .digit, .lit 46, .digit, .digit, .digit] s

/-- The input contains a contiguous substring of the shape `dd:dd.ddd`. -/
def ContainsClock (s : JSString) : Prop :=
  ∃ pre suf, s = pre ++ suf ∧ clockAt suf = true

/-- The input starts with `dd:dd:dd.ddd` (`d` an ASCII digit). -/
def fullClockAt (s : JSString) : Bool :=
  atomsAt [.digit, .digit, .lit 58, .digit, .digit, .lit 58, .digit, .digit, .lit 46,
    .digit, .digit, .digit] s

/-- The input is, as a whole, of the shape `dd:dd.ddd` or `dd:dd:dd.ddd`. -/
def isTimestampText (s : JSString) : Bool :=
  (clockAt s && s.length == 9) || (fullClockAt s && s.length == 12)

/-- The input starts with `ddd.dd:dd`, a reversed `dd:dd.ddd`. -/
def revClockAt (s : JSString) : Bool :=
  atomsAt [.digit, .digit, .digit, .lit 46, .digit, .digit, .lit 58, .digit, .digit] s

/-- The input starts with `:dd:ddXddd`, where `X` is any code unit but a line
terminator: what the extractor patterns read as a timestamp without hours. -/
def shortStampAt (s : JSString) : Bool :=
  atomsAt [.lit 58, .digit, .digit, .lit 58, .digit, .digit, .dot, .digit, .digit, .digit] s

/-- The input starts with `dd:dd:ddXddd`, where `X` is any code unit but a line
terminator: what the extractor patterns read as a timestamp with hours. -/
def longStampAt (s : JSString) : Bool :=
  atomsAt [.digit, .digit, .lit 58, .digit, .digit, .lit 58, .digit, .digit, .dot,
    .digit, .digit, .digit] s

/-- The input starts with ` --> `. -/
def arrowAt (s : JSString) : Bool :=
  atomsAt [.lit 32, .lit 45, .lit 45, .lit 62, .lit 32] s

/-- Length of the timestamp that the extractor patterns read at the front of the
input, if there is one. -/
def stampLen (s : JSString) : Option Nat :=
  if longStampAt s then some 12 else if shortStampAt s then some 10 else none

/-- The timing-line pattern of the extractors, `<stamp> --> <stamp>`, read at the
front of the input: the lengths of the two timestamps, if the input starts with one. -/
def timingLine (s : JSString) : Option (Nat × Nat) :=
  match stampLen s with
  | none => none
  | some n₁ =>
    if arrowAt (s.drop n₁) then (stampLen (s.drop (n₁ + 5))).map (fun n₂ => (n₁, n₂))
    else none

/-- The input starts with a timing line. -/
def timingLineAt (s : JSString) : Bool :=
  (timingLine s).isSome

/-- The transcript contains a title-layout chapter block: somewhere a line feed is
followed by a timing line (the title is what precedes the line feed on its line). -/
def HasTitleBlock (t : JSString) : Prop :=
  ∃ a b, t = a ++ 10 :: b ∧ timingLineAt b = true

/-- The transcript contains a chapter-file block: somewhere a timing line is followed
by a line feed (the title is what follows the line feed on its line). -/
def HasChapterBlock (t : JSString) : Prop :=
  ∃ a b n₁ n₂ c, t = a ++ b ∧ timingLine b = some (n₁, n₂) ∧ b.drop (n₁ + 5 + n₂) = 10 :: c

/-- The string contains no line terminator. -/
def NoLineTerminator (s : JSString) : Prop :=
  ∀ c ∈ s, isLineTerminator c = false

instance (s : JSString) : Decidable (NoLineTerminator s) := by
  unfold NoLineTerminator; infer_instance

/-- The digits of a timestamp written `hh:mm:ss.mmm`. -/
structure Stamp where
  h₁ : CodeUnit
  h₂ : CodeUnit
  m₁ : CodeUnit
  m₂ : CodeUnit
  s₁ : CodeUnit
  s₂ : CodeUnit
  f₁ : CodeUnit
  f₂ : CodeUnit
  f₃ : CodeUnit
  deriving DecidableEq, Repr

/-- All nine code units are ASCII digits. -/
def Stamp.WellFormed (t : Stamp) : Prop :=
  isDigit t.h₁ = true ∧ isDigit t.h₂ = true ∧ isDigit t.m₁ = true ∧ isDigit t.m₂ = true ∧
  isDigit t.s₁ = true ∧ isDigit t.s₂ = true ∧
  isDigit t.f₁ = true ∧ isDigit t.f₂ = true ∧ isDigit t.f₃ = true

instance (t : Stamp) : Decidable t.WellFormed := by
  unfold Stamp.WellFormed; infer_instance

/-- The text `hh:mm:ss.mmm`. -/
def Stamp.render (t : Stamp) : JSString :=
  [t.h₁, t.h₂, 58, t.m₁, t.m₂, 58, t.s₁, t.s₂, 46, t.f₁, t.f₂, t.f₃]

/-- The number of whole seconds that `hh:mm:ss.mmm` denotes. -/
def Stamp.seconds (t : Stamp) : Nat :=
  twoDigits t.s₁ t.s₂ + 60 * twoDigits t.m₁ t.m₂ + 3600 * twoDigits t.h₁ t.h₂

/-- A chapter of a transcript: title, start and end. -/
structure ChapterSpec where
  title : JSString
  start : Stamp
  stop : Stamp
  deriving DecidableEq, Repr

/-- The text ` --> `. -/
def arrow : JSString :=
  [32, 45, 45, 62, 32]

/-- The timing line `<start> --> <end>` of a chapter. -/
def ChapterSpec.timing (c : ChapterSpec) : JSString :=
  c.start.render ++ arrow ++ c.stop.render

/-- A chapter in the title-based layout: the title line, then the timing line. -/
def ChapterSpec.titleBlock (c : ChapterSpec) : JSString :=
  c.title ++ 10 :: c.timing

/-- A chapter in the chapter-file layout: the timing line, then the title line. -/
def ChapterSpec.chapterBlock (c : ChapterSpec) : JSString :=
  c.timing ++ 10 :: c.title

/-- Blocks joined by `"\n"`. -/
def joinLines : List JSString → JSString
  | [] => []
  | [b] => b
  | b :: bs => b ++ 10 :: joinLines bs

/-- The chapter object expected for a chapter. -/
def ChapterSpec.record (c : ChapterSpec) : Chapter :=
  { text := some c.title, start := some c.start.seconds, end_ := some c.stop.seconds }

/-- A chapter block found in a transcript: the title text and the texts of the two
timestamps of its timing line. -/
structure Block where
  text : JSString
  start : JSString
  stop : JSString
  deriving DecidableEq, Repr

/-- Any code unit but a line terminator. -/
def notTerminator (c : CodeUnit) : Bool :=
  !isLineTerminator c

/-- A title-layout block at the very front of the input, and the input behind it: the
rest of the current line (the title), a line feed, and a timing line. -/
def titleBlockAt (s : JSString) : Option (Block × JSString) :=
  match s.dropWhile notTerminator with
  | [] => none
  | c :: r =>
    if c = 10 then
      match timingLine r with
      | some (n₁, n₂) =>
        some (⟨s.takeWhile notTerminator, r.take n₁, (r.drop (n₁ + 5)).take n₂⟩,
          r.drop (n₁ + 5 + n₂))
      | none => none
    else none

/-- A chapter-file block at the very front of the input, and the input behind it: a
timing line, a line feed, and the rest of that line (the title). -/
def chapterBlockAt (s : JSString) : Option (Block × JSString) :=
  match timingLine s with
  | some (n₁, n₂) =>
    match s.drop (n₁ + 5 + n₂) with
    | [] => none
    | c :: r =>
      if c = 10 then
        some (⟨r.takeWhile notTerminator, s.take n₁, (s.drop (n₁ + 5)).take n₂⟩,
          r.dropWhile notTerminator)
      else none
  | none => none

/-- The string is exactly one timestamp as the extractor patterns read it. -/
def IsStampText (u : JSString) : Prop :=
  stampLen u = some u.length

/-- The text of a block in the title-based layout. -/
def Block.titleMatch (b : Block) : JSString :=
  b.text ++ 10 :: (b.start ++ arrow ++ b.stop)

/-- The text of a block in the chapter-file layout. -/
def Block.chapterMatch (b : Block) : JSString :=
  b.start ++ arrow ++ b.stop ++ 10 :: b.text

/-- The two transcript layouts. -/
inductive Layout
  | titles
  | chapters
  deriving DecidableEq, Repr

/-- The extractor of a layout. -/
def Layout.extract : Layout → JSString → Except Failure (List Chapter)
  | .titles => titlesToTimestamps
  | .chapters => chaptersToTimestamps

/-- The block of a layout at the front of the input. -/
def Layout.blockAt : Layout → JSString → Option (Block × JSString)
  | .titles => titleBlockAt
  | .chapters => chapterBlockAt

/-- The pattern that the extractor of a layout runs with the `g` flag. -/
def Layout.regexp : Layout → Regex
  | .titles => titlesRegexp
  | .chapters => chaptersRegexp

/-- The text of a block in a layout. -/
def Layout.render : Layout → Block → JSString
  | .titles => Block.titleMatch
  | .chapters => Block.chapterMatch

/-- The callback that the extractor of a layout applies to every match. -/
def Layout.callback : Layout → JSString → Except Failure Chapter
  | .titles => titlesCallback
  | .chapters => chaptersCallback

/-- The chapter object that the callbacks build from the captures of a block: the
start is converted before the end, and the first failure is the result. -/
def buildChapter (b : Block) : Except Failure Chapter := do
  let start ← convertTimeStampToSeconds b.start
  let end_ ← convertTimeStampToSeconds b.stop
  pure { text := some b.text, start := start, end_ := end_ }

/-- The block that a chapter is written as. -/
def ChapterSpec.block (c : ChapterSpec) : Block :=
  ⟨c.title, c.start.render, c.stop.render⟩

/-- Two chapters, the second of which has a title that reads like a timing line. -/
def timingTitleChapters : List ChapterSpec :=
  [ { title := js "A",
      start := ⟨48, 48, 48, 48, 48, 48, 48, 48, 48⟩,
      stop := ⟨48, 48, 48, 48, 48, 49, 48, 48, 48⟩ },
    { title := js "00:00:00.000 --> 00:00:01.000",
      start := ⟨48, 48, 48, 48, 48, 49, 48, 48, 48⟩,
      stop := ⟨48, 48, 48, 48, 48, 50, 48, 48, 48⟩ } ]

/-- What is left of `joinLines (b :: bs) ++ tail` behind `b`. -/
def restLines (bs : List JSString) (tail : JSString) : JSString :=
  match bs with
  | [] => tail
  | b :: bs => 10 :: (b ++ restLines bs tail)

/-- The blocks of a transcript, read from its start: each block is the leftmost one
that starts at or behind the end of the previous block. -/
inductive LeftmostBlocks (blockAt : JSString → Option (Block × JSString)) :
    JSString → List Block → Prop
  | nil (s : JSString) (hnone : ∀ pre suf, s = pre ++ suf → blockAt suf = none) :
      LeftmostBlocks blockAt s []
  | cons (pre suf rest : JSString) (b : Block) (bs : List Block)
      (hfirst : ∀ pre' suf', pre ++ suf = pre' ++ suf' → pre'.length < pre.length →
        blockAt suf' = none)
      (hblock : blockAt suf = some (b, rest))
      (htail : LeftmostBlocks blockAt rest bs) :
      LeftmostBlocks blockAt (pre ++ suf) (b :: bs)

/-- The chapter object is built from the block: its text is the block's title, its
start and end are the converted timestamps. -/
def BuiltFrom (c : Chapter) (b : Block) : Prop :=
  c.text = some b.text ∧ convertTimeStampToSeconds b.start = .ok c.start ∧
    convertTimeStampToSeconds b.stop = .ok c.end_

/-- The timestamp is rejected by `convertTimeStampToSeconds`. -/
def rejected (ts : JSString) : Bool :=
  match convertTimeStampToSeconds ts with
  | .ok _ => false
  | .error _ => true

/-- The captured timestamps of the blocks in the order in which the extractors convert
them: block by block, start before end. -/
def capturedStamps (blocks : List Block) : List JSString :=
  blocks.flatMap (fun b => [b.start, b.stop])


/-- The digits of a timestamp written `mm:ss.mmm`, without hours. -/
structure ShortStamp where
  m₁ : CodeUnit
  m₂ : CodeUnit
  s₁ : CodeUnit
  s₂ : CodeUnit
  f₁ : CodeUnit
  f₂ : CodeUnit
  f₃ : CodeUnit
  deriving DecidableEq, Repr

/-- All seven code units are ASCII digits. -/
def ShortStamp.WellFormed (t : ShortStamp) : Prop :=
  isDigit t.m₁ = true ∧ isDigit t.m₂ = true ∧ isDigit t.s₁ = true ∧ isDigit t.s₂ = true ∧
  isDigit t.f₁ = true ∧ isDigit t.f₂ = true ∧ isDigit t.f₃ = true

instance (t : ShortStamp) : Decidable t.WellFormed := by
  unfold ShortStamp.WellFormed; infer_instance

/-- The text `mm:ss.mmm`. -/
def ShortStamp.render (t : ShortStamp) : JSString :=
  [t.m₁, t.m₂, 58, t.s₁, t.s₂, 46, t.f₁, t.f₂, t.f₃]

/-- The number of whole seconds that `mm:ss.mmm` denotes. -/
def ShortStamp.seconds (t : ShortStamp) : Nat :=
  twoDigits t.s₁ t.s₂ + 60 * twoDigits t.m₁ t.m₂

/-- What the variable `chapters` of `ableplayerAddDots` holds behind the `switch` of
source lines 178-189: the `transcript` argument itself (case `'array'`), or the list
that an extractor returned. -/
inductive ChaptersValue
  | passed (transcript : JSString)
  | extracted (chapters : List Chapter)
  deriving DecidableEq, Repr

/-- The `switch` on `mergedOpts.format` of source lines 178-189, for a `transcript`
that is a string. The format is `some s` when the option is the string `s`, and `none`
when it is absent or not a string; the cases are compared with `===`. An exception of
the extractor leaves the `switch`. -/
def ableplayerAddDotsChapters (format : Option JSString) (transcript : JSString) :
    Except Failure ChaptersValue :=
  if format = some (js "array") then .ok (.passed transcript)
  else if format = some (js "titles") then
    match titlesToTimestamps transcript with
    | .ok chapters => .ok (.extracted chapters)
    | .error e => .error e
  else
    match chaptersToTimestamps transcript with
    | .ok chapters => .ok (.extracted chapters)
    | .error e => .error e

/-- A JavaScript value as it occurs in a chapter object. -/
inductive JSValue
  | undefined
  | string (s : JSString)
  /-- a number, `none` for `NaN` -/
  | number (n : Option Nat)
  deriving DecidableEq, Repr

/-- The object literal `{ text, start, end }` of source lines 59 and 100: the own
properties of the object, in the order of their creation. -/
def Chapter.properties (c : Chapter) : List (JSString × JSValue) :=
  [(js "text", match c.text with
      | some s => .string s
      | none => .undefined),
   (js "start", .number c.start),
   (js "end", .number c.end_)]

/-- Reading a property of an object: `undefined` when the object has no such property
(no property of `Object.prototype` has one of the names read in the source). -/
def getProperty (properties : List (JSString × JSValue)) (key : JSString) : JSValue :=
  match properties.find? (fun p => p.1 == key) with
  | some p => p.2
  | none => .undefined

/-- The code units of a timestamp as the extractor patterns capture it,
`[dd]:dd:ddXddd`: the hours are optional, and `sep` is the code unit `X` in front of
the milliseconds. -/
structure CapturedStamp where
  hours : Option (CodeUnit × CodeUnit)
  m₁ : CodeUnit
  m₂ : CodeUnit
  s₁ : CodeUnit
  s₂ : CodeUnit
  sep : CodeUnit
  f₁ : CodeUnit
  f₂ : CodeUnit
  f₃ : CodeUnit
  deriving DecidableEq, Repr

/-- The digit groups are ASCII digits, and the separator is no line terminator. -/
def CapturedStamp.WellFormed (c : CapturedStamp) : Prop :=
  (match c.hours with
    | some (h₁, h₂) => isDigit h₁ = true ∧ isDigit h₂ = true
    | none => True) ∧
  isDigit c.m₁ = true ∧ isDigit c.m₂ = true ∧ isDigit c.s₁ = true ∧ isDigit c.s₂ = true ∧
  isLineTerminator c.sep = false ∧
  isDigit c.f₁ = true ∧ isDigit c.f₂ = true ∧ isDigit c.f₃ = true

/-- The text `[hh]:mm:ssXmmm`. -/
def CapturedStamp.render (c : CapturedStamp) : JSString :=
  (match c.hours with
    | some (h₁, h₂) => [h₁, h₂]
    | none => []) ++ [58, c.m₁, c.m₂, 58, c.s₁, c.s₂, c.sep, c.f₁, c.f₂, c.f₃]

/-- The number of whole seconds of `[hh]:mm:ss`, absent hours counting as 0. -/
def CapturedStamp.seconds (c : CapturedStamp) : Nat :=
  twoDigits c.s₁ c.s₂ + 60 * twoDigits c.m₁ c.m₂ +
    3600 * (match c.hours with
      | some (h₁, h₂) => twoDigits h₁ h₂
      | none => 0)

/-- The comparison `a <= b` of two strings: lexicographic, code unit by code unit. -/
def lexLe : JSString → JSString → Bool
  | [], _ => true
  | _ :: _, [] => false
  | a :: as, b :: bs => decide (a < b) || (a == b && lexLe as bs)

/-! ## The matcher on the patterns of the source -/

theorem run_seq (r₁ r₂ : Regex) (st : MState) (k : MState → Option MState) :
    (Regex.seq r₁ r₂).run st k = r₁.run st (fun st₁ => r₂.run st₁ k) := rfl

theorem run_opt (r : Regex) (st : MState) (k : MState → Option MState) :
    (Regex.opt r).run st k = match r.run st k with
      | some st₁ => some st₁
      | none => k st := rfl

theorem run_group (i : Nat) (r : Regex) (st : MState) (k : MState → Option MState) :
    (Regex.group i r).run st k = r.run st (fun st₁ =>
      k ⟨st₁.rest, (i, st.rest.take (st.rest.length - st₁.rest.length)) :: st₁.caps⟩) := rfl

theorem run_atom_nil (a : Atom) (caps : List (Nat × JSString)) (k : MState → Option MState) :
    (Regex.atom a).run ⟨[], caps⟩ k = none := rfl

theorem run_atom_cons (a : Atom) (c : CodeUnit) (cs : JSString) (caps : List (Nat × JSString))
    (k : MState → Option MState) :
    (Regex.atom a).run ⟨c :: cs, caps⟩ k = if a.accepts c then k ⟨cs, caps⟩ else none := rfl

theorem run_star (a : Atom) (st : MState) (k : MState → Option MState) :
    (Regex.star a).run st k = starRun a st.caps k st.rest := rfl

theorem isDigit_iff (c : Nat) : isDigit c = true ↔ 48 ≤ c ∧ c ≤ 57 := by
  simp [isDigit]

theorem isDigit_ne_colon (c : Nat) (h : isDigit c = true) : (c == 58) = false := by
  rw [isDigit_iff] at h
  simp only [beq_eq_false_iff_ne, ne_eq]
  omega

theorem take_length_sub_drop (s : JSString) (n : Nat) :
    s.take (s.length - (s.drop n).length) = s.take n := by
  rw [List.length_drop]
  by_cases h : n ≤ s.length
  · congr 1; omega
  · have h1 : s.length - (s.length - n) = s.length := by omega
    rw [h1, List.take_length, List.take_of_length_le (by omega)]

theorem take_append_length_sub (a b : JSString) :
    (a ++ b).take ((a ++ b).length - b.length) = a := by
  simp

theorem take_length_sub_dropWhile (s : JSString) (p : CodeUnit → Bool) :
    s.take (s.length - (s.dropWhile p).length) = s.takeWhile p := by
  have h := List.takeWhile_append_dropWhile p s
  calc s.take (s.length - (s.dropWhile p).length)
      = (s.takeWhile p ++ s.dropWhile p).take
          ((s.takeWhile p ++ s.dropWhile p).length - (s.dropWhile p).length) := by rw [h]
    _ = s.takeWhile p := take_append_length_sub _ _

/-- A chain of atoms reads exactly the code units that the atoms accept. -/
theorem run_ofAtoms (a : Atom) (as : List Atom) (st : MState) (k : MState → Option MState) :
    (Regex.ofAtoms a as).run st k
      = if atomsAt (a :: as) st.rest then k ⟨st.rest.drop (as.length + 1), st.caps⟩
        else none := by
  obtain ⟨s, caps⟩ := st
  induction as generalizing a s with
  | nil =>
    cases s with
    | nil => simp [Regex.ofAtoms, Regex.run, atomsAt]
    | cons c cs => simp [Regex.ofAtoms, Regex.run, atomsAt]
  | cons b bs ih =>
    cases s with
    | nil => simp [Regex.ofAtoms, Regex.run, atomsAt]
    | cons c cs =>
      simp only [Regex.ofAtoms, Regex.run, ih]
      by_cases hc : a.accepts c = true
      · simp [atomsAt, hc]
      · simp [atomsAt, hc]

theorem atomsAt_length (as : List Atom) (s : JSString) (h : atomsAt as s = true) :
    as.length ≤ s.length := by
  induction as generalizing s with
  | nil => simp
  | cons a as ih =>
    cases s with
    | nil => simp [atomsAt] at h
    | cons c cs =>
      simp only [atomsAt, Bool.and_eq_true] at h
      simpa using ih cs h.2

/-- Whether a chain of atoms is read depends only on as many code units as it has
atoms. -/
theorem atomsAt_append (as : List Atom) (s t : JSString) (h : as.length ≤ s.length) :
    atomsAt as (s ++ t) = atomsAt as s := by
  induction as generalizing s with
  | nil => simp [atomsAt]
  | cons a as ih =>
    cases s with
    | nil => simp at h
    | cons c cs =>
      have := ih cs (by simpa using h)
      show (a.accepts c && atomsAt as (cs ++ t)) = (a.accepts c && atomsAt as cs)
      rw [this]

theorem shortStampAt_digit (a : CodeUnit) (r : JSString) (h : isDigit a = true) :
    shortStampAt (a :: r) = false := by
  simp [shortStampAt, atomsAt, Atom.accepts, isDigit_ne_colon a h]

theorem longStampAt_cons (a b : CodeUnit) (r : JSString) :
    longStampAt (a :: b :: r) = (isDigit a && isDigit b && shortStampAt r) := by
  simp [longStampAt, shortStampAt, atomsAt, Atom.accepts, Bool.and_assoc]

theorem stampLen_le (s : JSString) (n : Nat) (h : stampLen s = some n) : n ≤ s.length := by
  unfold stampLen at h
  split at h
  · rename_i hl
    have := atomsAt_length _ _ hl
    simp at h; subst h; simpa using this
  · split at h
    · rename_i hs
      have := atomsAt_length _ _ hs
      simp at h; subst h; simpa using this
    · simp at h

/-- The sub-pattern `(?:\d\d)?:\d\d:\d\d.\d\d\d` reads a timestamp with hours when the
input starts with one, else a timestamp without hours when the input starts with one,
and fails otherwise; no backtracking into the optional group can succeed. -/
theorem run_stampPattern (st : MState) (k : MState → Option MState) :
    stampPattern.run st k
      = match stampLen st.rest with
        | some n => k ⟨st.rest.drop n, st.caps⟩
        | none => none := by
  obtain ⟨s, caps⟩ := st
  have htail : ∀ (st' : MState) (k' : MState → Option MState),
      Regex.run (.seq (.atom (.lit 58)) (.seq (.atom .digit) (.seq (.atom .digit)
        (.seq (.atom (.lit 58)) (.seq (.atom .digit) (.seq (.atom .digit) (.seq (.atom .dot)
        (.seq (.atom .digit) (.seq (.atom .digit) (.atom .digit)))))))))) st' k'
        = if shortStampAt st'.rest then k' ⟨st'.rest.drop 10, st'.caps⟩ else none := fun st' k' =>
    run_ofAtoms (.lit 58) [.digit, .digit, .lit 58, .digit, .digit, .dot, .digit, .digit, .digit]
      st' k'
  unfold stampPattern
  rw [run_seq, run_opt, run_seq]
  simp only [htail]
  rcases s with _ | ⟨a, _ | ⟨b, r⟩⟩
  · simp [stampLen, longStampAt, shortStampAt, atomsAt, run_atom_nil]
  · by_cases ha : isDigit a = true
    · simp [stampLen, longStampAt, shortStampAt_digit a [] ha, atomsAt, Atom.accepts, ha,
        run_atom_cons, run_atom_nil]
    · simp [stampLen, longStampAt, shortStampAt, atomsAt, Atom.accepts, ha, run_atom_cons]
  · rw [run_atom_cons]
    by_cases ha : isDigit a = true
    · have hshort := shortStampAt_digit a (b :: r) ha
      rw [run_atom_cons]
      by_cases hb : isDigit b = true
      · by_cases hr : shortStampAt r = true
        · simp only [stampLen, longStampAt_cons, ha, hb, hr, hshort, Atom.accepts]
          simp
          cases k ⟨List.drop 10 r, caps⟩ <;> simp
        · simp [stampLen, longStampAt_cons, ha, hb, hr, hshort, Atom.accepts]
      · simp [stampLen, longStampAt_cons, ha, hb, hshort, Atom.accepts]
    · simp only [stampLen, longStampAt_cons, ha, Atom.accepts]
      by_cases hs : shortStampAt (a :: b :: r) = true <;> simp [hs]

theorem run_group_stampPattern (i : Nat) (st : MState) (k : MState → Option MState) :
    (Regex.group i stampPattern).run st k
      = match stampLen st.rest with
        | some n => k ⟨st.rest.drop n, (i, st.rest.take n) :: st.caps⟩
        | none => none := by
  rw [run_group, run_stampPattern]
  cases h : stampLen st.rest with
  | none => rfl
  | some n => simp only [take_length_sub_drop]

theorem run_arrowPattern (st : MState) (k : MState → Option MState) :
    arrowPattern.run st k
      = if arrowAt st.rest then k ⟨st.rest.drop 5, st.caps⟩ else none :=
  run_ofAtoms (.lit 32) [.lit 45, .lit 45, .lit 62, .lit 32] st k

/-- The greedy star followed by a continuation that rejects every code unit the atom
accepts: the star reads the longest run of accepted code units. -/
theorem starRun_of_reject (a : Atom) (caps : List (Nat × JSString))
    (k : MState → Option MState)
    (hk : ∀ c cs, a.accepts c = true → k ⟨c :: cs, caps⟩ = none) (s : JSString) :
    starRun a caps k s = k ⟨s.dropWhile a.accepts, caps⟩ := by
  induction s with
  | nil => rfl
  | cons c cs ih =>
    by_cases hc : a.accepts c = true
    · simp only [starRun, hc, if_true, List.dropWhile_cons_of_pos, ih, hk c cs hc]
      cases k ⟨List.dropWhile a.accepts cs, caps⟩ <;> rfl
    · simp [starRun, hc, List.dropWhile_cons_of_neg]

/-- The greedy star followed by a continuation that always succeeds: the star reads the
longest run of accepted code units. -/
theorem starRun_of_total (a : Atom) (caps : List (Nat × JSString))
    (k : MState → Option MState) (hk : ∀ st, (k st).isSome = true) (s : JSString) :
    starRun a caps k s = k ⟨s.dropWhile a.accepts, caps⟩ := by
  induction s with
  | nil => rfl
  | cons c cs ih =>
    by_cases hc : a.accepts c = true
    · simp only [starRun, hc, if_true, List.dropWhile_cons_of_pos, ih]
      have := hk ⟨List.dropWhile a.accepts cs, caps⟩
      cases hks : k ⟨List.dropWhile a.accepts cs, caps⟩ with
      | none => rw [hks] at this; simp at this
      | some st => rfl
    · simp [starRun, hc, List.dropWhile_cons_of_neg]

theorem dot_accepts_ne_lf (c : Nat) (h : Atom.dot.accepts c = true) :
    (Atom.lit 10).accepts c = false := by
  simp only [Atom.accepts, isLineTerminator, Bool.not_eq_true', Bool.or_eq_false_iff,
    beq_eq_false_iff_ne, ne_eq] at h
  simp only [Atom.accepts, beq_eq_false_iff_ne, ne_eq]
  exact h.1.1.1

/-- Reading `<stamp> --> <stamp>` step by step is reading a timing line. -/
theorem timingLine_elim {α : Type} (s : JSString) (k : Nat → Nat → Option α) :
    (match stampLen s with
      | some n₁ =>
        if arrowAt (s.drop n₁) then
          match stampLen ((s.drop n₁).drop 5) with
          | some n₂ => k n₁ n₂
          | none => none
        else none
      | none => none)
    = match timingLine s with
      | some (n₁, n₂) => k n₁ n₂
      | none => none := by
  unfold timingLine
  cases h₁ : stampLen s with
  | none => rfl
  | some n₁ =>
    by_cases ha : arrowAt (s.drop n₁) = true
    · simp only [ha, if_true, List.drop_drop]
      cases h₂ : stampLen (s.drop (n₁ + 5)) with
      | none => rfl
      | some n₂ => rfl
    · simp [ha]

/-- The pattern of source lines 45 and 52 at the front of `s`: the title is the longest
run of code units other than line terminators, then come a line feed and a timing
line. -/
theorem run_titlesRegexp (s : JSString) :
    titlesRegexp.run ⟨s, []⟩ some =
      match s.dropWhile Atom.dot.accepts with
      | [] => none
      | c :: r =>
        if c = 10 then
          match timingLine r with
          | some (n₁, n₂) =>
            some ⟨r.drop (n₁ + 5 + n₂),
              [(3, (r.drop (n₁ + 5)).take n₂), (2, r.take n₁), (1, s.takeWhile Atom.dot.accepts)]⟩
          | none => none
        else none := by
  unfold titlesRegexp
  rw [run_seq, run_group, run_star]
  rw [starRun_of_reject]
  · simp only [take_length_sub_dropWhile]
    cases hd : s.dropWhile Atom.dot.accepts with
    | nil => rfl
    | cons c r =>
      rw [run_seq, run_atom_cons]
      by_cases hc : c = 10
      · subst hc
        simp only [Atom.accepts, beq_self_eq_true, if_true, run_seq, run_group_stampPattern,
          run_arrowPattern]
        rw [← timingLine_elim]
        cases h₁ : stampLen r with
        | none => rfl
        | some n₁ =>
          simp only []
          by_cases ha : arrowAt (r.drop n₁) = true
          · simp only [ha, if_true]
            cases h₂ : stampLen ((r.drop n₁).drop 5) with
            | none => rfl
            | some n₂ =>
              simp only [List.drop_drop]
          · simp [ha]
      · simp [Atom.accepts, hc]
  · intro c cs hc
    rw [run_seq, run_atom_cons, dot_accepts_ne_lf c hc]
    rfl

/-- The pattern of source line 86 at the front of `s`: a timing line, a line feed, and
the longest run of code units other than line terminators. -/
theorem run_chaptersRegexp (s : JSString) :
    chaptersRegexp.run ⟨s, []⟩ some =
      match timingLine s with
      | some (n₁, n₂) =>
        match s.drop (n₁ + 5 + n₂) with
        | [] => none
        | c :: r => if c = 10 then some ⟨r.dropWhile Atom.dot.accepts, []⟩ else none
      | none => none := by
  unfold chaptersRegexp
  simp only [run_seq, run_stampPattern, run_arrowPattern]
  rw [← timingLine_elim]
  cases h₁ : stampLen s with
  | none => rfl
  | some n₁ =>
    simp only []
    by_cases ha : arrowAt (s.drop n₁) = true
    · simp only [ha, if_true]
      cases h₂ : stampLen ((s.drop n₁).drop 5) with
      | none => rfl
      | some n₂ =>
        simp only [List.drop_drop]
        cases hd : List.drop (n₁ + 5 + n₂) s with
        | nil => rfl
        | cons c r =>
          rw [run_atom_cons, run_star]
          by_cases hc : c = 10
          · subst hc
            simp only [Atom.accepts, beq_self_eq_true, if_true]
            exact starRun_of_total _ _ some (fun _ => rfl) _
          · simp [Atom.accepts, hc]
    · simp [ha]

/-- The pattern of source line 93 at the front of `s`. -/
theorem run_chaptersSubregexp (s : JSString) :
    chaptersSubregexp.run ⟨s, []⟩ some =
      match timingLine s with
      | some (n₁, n₂) =>
        match s.drop (n₁ + 5 + n₂) with
        | [] => none
        | c :: r =>
          if c = 10 then
            some ⟨r.dropWhile Atom.dot.accepts,
              [(3, r.takeWhile Atom.dot.accepts), (2, (s.drop (n₁ + 5)).take n₂), (1, s.take n₁)]⟩
          else none
      | none => none := by
  unfold chaptersSubregexp
  simp only [run_seq, run_group_stampPattern, run_arrowPattern]
  rw [← timingLine_elim]
  cases h₁ : stampLen s with
  | none => rfl
  | some n₁ =>
    simp only []
    by_cases ha : arrowAt (s.drop n₁) = true
    · simp only [ha, if_true]
      cases h₂ : stampLen ((s.drop n₁).drop 5) with
      | none => rfl
      | some n₂ =>
        simp only [List.drop_drop]
        cases hd : List.drop (n₁ + 5 + n₂) s with
        | nil => rfl
        | cons c r =>
          rw [run_atom_cons, run_group, run_star]
          by_cases hc : c = 10
          · subst hc
            simp only [Atom.accepts, beq_self_eq_true, if_true]
            rw [starRun_of_total Atom.dot _
              (fun st₁ => some ⟨st₁.rest, (3, List.take (r.length - st₁.rest.length) r) :: st₁.caps⟩)
              (fun _ => rfl) _]
            simp only [take_length_sub_dropWhile]
          · simp [Atom.accepts, hc]
    · simp [ha]

/-! ## Searching for the leftmost match -/

theorem search_of_run (r : Regex) (s : JSString) (st : MState)
    (h : r.run ⟨s, []⟩ some = some st) : r.search s = some (0, st) := by
  cases s with
  | nil => simp [Regex.search, h]
  | cons c cs => simp [Regex.search, h]

theorem search_cons_of_run_none (r : Regex) (c : CodeUnit) (cs : JSString)
    (h : r.run ⟨c :: cs, []⟩ some = none) :
    r.search (c :: cs) = (r.search cs).map (fun p => (p.1 + 1, p.2)) := by
  simp [Regex.search, h]

/-- The search fails exactly when the pattern matches at no position. -/
theorem search_eq_none_iff (r : Regex) (s : JSString) :
    r.search s = none ↔ ∀ pre suf, s = pre ++ suf → r.run ⟨suf, []⟩ some = none := by
  induction s with
  | nil =>
    constructor
    · intro h pre suf hs
      have hsuf : suf = [] := by
        have := congrArg List.length hs
        simp at this
        exact List.length_eq_zero.mp (by omega)
      subst hsuf
      cases hr : r.run ⟨[], []⟩ some with
      | none => rfl
      | some st => simp [Regex.search, hr] at h
    · intro h
      simp [Regex.search, h [] [] rfl]
  | cons c cs ih =>
    constructor
    · intro h pre suf hs
      cases hr : r.run ⟨c :: cs, []⟩ some with
      | some st => simp [Regex.search, hr] at h
      | none =>
        rw [search_cons_of_run_none r c cs hr] at h
        have hcs : r.search cs = none := by simpa using h
        cases pre with
        | nil => simp at hs; subst hs; exact hr
        | cons p pre' =>
          simp only [List.cons_append, List.cons.injEq] at hs
          exact ih.mp hcs pre' suf hs.2
    · intro h
      have hr := h [] (c :: cs) rfl
      rw [search_cons_of_run_none r c cs hr]
      have : r.search cs = none := ih.mpr (fun pre suf hs => h (c :: pre) suf (by simp [hs]))
      simp [this]

/-- A successful search returns the match at the leftmost position where the pattern
matches. -/
theorem search_eq_some_iff (r : Regex) (s : JSString) (n : Nat) (st : MState) :
    r.search s = some (n, st) ↔
      ∃ pre suf, s = pre ++ suf ∧ pre.length = n ∧ r.run ⟨suf, []⟩ some = some st ∧
        ∀ pre' suf', s = pre' ++ suf' → pre'.length < n → r.run ⟨suf', []⟩ some = none := by
  induction s generalizing n with
  | nil =>
    constructor
    · intro h
      cases hr : r.run ⟨[], []⟩ some with
      | none => simp [Regex.search, hr] at h
      | some st' =>
        simp only [Regex.search, hr, Option.map_some', Option.some.injEq, Prod.mk.injEq] at h
        obtain ⟨rfl, rfl⟩ := h
        exact ⟨[], [], rfl, rfl, hr, fun _ _ _ hlt => absurd hlt (Nat.not_lt_zero _)⟩
    · rintro ⟨pre, suf, hs, hn, hr, -⟩
      have hl := congrArg List.length hs
      simp only [List.length_nil, List.length_append] at hl
      have hpre : pre = [] := List.length_eq_zero.mp (by omega)
      have hsuf : suf = [] := List.length_eq_zero.mp (by omega)
      subst hpre hsuf
      simp only [List.length_nil] at hn
      subst hn
      simp [Regex.search, hr]
  | cons c cs ih =>
    constructor
    · intro h
      cases hr : r.run ⟨c :: cs, []⟩ some with
      | some st' =>
        simp only [Regex.search, hr, Option.some.injEq, Prod.mk.injEq] at h
        obtain ⟨rfl, rfl⟩ := h
        exact ⟨[], c :: cs, rfl, rfl, hr, fun _ _ _ hlt => absurd hlt (Nat.not_lt_zero _)⟩
      | none =>
        rw [search_cons_of_run_none r c cs hr] at h
        cases hcs : r.search cs with
        | none => simp [hcs] at h
        | some p =>
          obtain ⟨n', st'⟩ := p
          simp only [hcs, Option.map_some', Option.some.injEq, Prod.mk.injEq] at h
          obtain ⟨rfl, rfl⟩ := h
          obtain ⟨pre, suf, hs, hn, hrun, hmin⟩ := (ih n').mp hcs
          refine ⟨c :: pre, suf, by simp [hs], by simp [hn], hrun, ?_⟩
          intro pre' suf' hs' hlt
          cases pre' with
          | nil => simp at hs'; subst hs'; exact hr
          | cons p pre'' =>
            simp only [List.cons_append, List.cons.injEq] at hs'
            exact hmin pre'' suf' hs'.2 (by simp at hlt; omega)
    · rintro ⟨pre, suf, hs, hn, hrun, hmin⟩
      cases pre with
      | nil =>
        simp only [List.nil_append] at hs
        subst hs
        simp only [List.length_nil] at hn
        subst hn
        exact search_of_run r _ st hrun
      | cons p pre' =>
        simp only [List.cons_append, List.cons.injEq] at hs
        obtain ⟨rfl, hs⟩ := hs
        subst hn
        have hr : r.run ⟨c :: cs, []⟩ some = none :=
          hmin [] (c :: cs) (by simp [hs]) (by simp)
        rw [search_cons_of_run_none r c cs hr]
        have : r.search cs = some (pre'.length, st) :=
          (ih pre'.length).mpr ⟨pre', suf, hs, rfl, hrun, fun pre'' suf'' hs'' hlt =>
            hmin (c :: pre'') suf'' (by simp [hs'']) (by simpa using hlt)⟩
        simp [this]

/-! ## Blocks: what the extractor patterns match -/

theorem dot_accepts_eq : Atom.dot.accepts = notTerminator := by
  funext c; rfl

theorem run_titlesRegexp_eq (s : JSString) :
    titlesRegexp.run ⟨s, []⟩ some
      = (titleBlockAt s).map
          (fun p => ⟨p.2, [(3, p.1.stop), (2, p.1.start), (1, p.1.text)]⟩) := by
  rw [run_titlesRegexp, titleBlockAt, dot_accepts_eq]
  cases s.dropWhile notTerminator with
  | nil => rfl
  | cons c r =>
    by_cases hc : c = 10
    · simp only [hc, if_true]
      cases timingLine r with
      | none => rfl
      | some p => rfl
    · simp [hc]

theorem run_chaptersRegexp_eq (s : JSString) :
    chaptersRegexp.run ⟨s, []⟩ some = (chapterBlockAt s).map (fun p => ⟨p.2, []⟩) := by
  rw [run_chaptersRegexp, chapterBlockAt, dot_accepts_eq]
  cases timingLine s with
  | none => rfl
  | some p =>
    obtain ⟨n₁, n₂⟩ := p
    simp only []
    cases s.drop (n₁ + 5 + n₂) with
    | nil => rfl
    | cons c r =>
      by_cases hc : c = 10
      · simp [hc]
      · simp [hc]

theorem run_chaptersSubregexp_eq (s : JSString) :
    chaptersSubregexp.run ⟨s, []⟩ some
      = (chapterBlockAt s).map
          (fun p => ⟨p.2, [(3, p.1.text), (2, p.1.stop), (1, p.1.start)]⟩) := by
  rw [run_chaptersSubregexp, chapterBlockAt, dot_accepts_eq]
  cases timingLine s with
  | none => rfl
  | some p =>
    obtain ⟨n₁, n₂⟩ := p
    simp only []
    cases s.drop (n₁ + 5 + n₂) with
    | nil => rfl
    | cons c r =>
      by_cases hc : c = 10
      · simp [hc]
      · simp [hc]

theorem longStampAt_of_colon (c : CodeUnit) (r : JSString) (h : (c == 58) = true) :
    longStampAt (c :: r) = false := by
  have hc : c = 58 := by simpa using h
  subst hc
  cases r <;> simp [longStampAt, atomsAt, Atom.accepts, isDigit]

theorem shortStampAt_head (s : JSString) (h : shortStampAt s = true) :
    ∃ r, s = 58 :: r := by
  cases s with
  | nil => simp [shortStampAt, atomsAt] at h
  | cons c r =>
    simp only [shortStampAt, atomsAt, Atom.accepts, Bool.and_eq_true, beq_iff_eq] at h
    exact ⟨r, by rw [h.1]⟩

/-- A timestamp read at the front of the input is a timestamp on its own. -/
theorem stampLen_take (s : JSString) (n : Nat) (h : stampLen s = some n) :
    IsStampText (s.take n) ∧ (s.take n).length = n := by
  have hle := stampLen_le s n h
  have hlen : (s.take n).length = n := by simp [hle]
  refine ⟨?_, hlen⟩
  unfold IsStampText
  rw [hlen]
  have hs : s = s.take n ++ s.drop n := (List.take_append_drop n s).symm
  unfold stampLen at h ⊢
  by_cases hl : longStampAt s = true
  · simp only [hl, if_true, Option.some.injEq] at h
    subst h
    have : longStampAt (s.take 12) = true := by
      unfold longStampAt at hl ⊢
      rw [hs, atomsAt_append _ _ _ (by simp [hlen])] at hl
      exact hl
    simp [this]
  · simp only [hl, Bool.false_eq_true, if_false] at h
    by_cases hsh : shortStampAt s = true
    · simp only [hsh, if_true, Option.some.injEq] at h
      subst h
      have h1 : shortStampAt (s.take 10) = true := by
        unfold shortStampAt at hsh ⊢
        rw [hs, atomsAt_append _ _ _ (by simp [hlen])] at hsh
        exact hsh
      have h2 : longStampAt (s.take 10) = false := by
        obtain ⟨r, hr⟩ := shortStampAt_head _ h1
        rw [hr]
        exact longStampAt_of_colon 58 r rfl
      simp [h1, h2]
    · simp [hsh] at h

/-- A timestamp is read at the front of whatever text it is followed by. -/
theorem stampLen_append (u rest : JSString) (h : IsStampText u) :
    stampLen (u ++ rest) = some u.length := by
  unfold IsStampText stampLen at h
  unfold stampLen
  by_cases hl : longStampAt u = true
  · simp only [hl, if_true, Option.some.injEq] at h
    have : longStampAt (u ++ rest) = true := by
      unfold longStampAt at hl ⊢
      rw [atomsAt_append _ _ _ (by simp [← h])]
      exact hl
    simp [this, ← h]
  · simp only [hl, Bool.false_eq_true, if_false] at h
    by_cases hsh : shortStampAt u = true
    · simp only [hsh, if_true, Option.some.injEq] at h
      have h1 : shortStampAt (u ++ rest) = true := by
        unfold shortStampAt at hsh ⊢
        rw [atomsAt_append _ _ _ (by simp [← h])]
        exact hsh
      have h2 : longStampAt (u ++ rest) = false := by
        obtain ⟨r, hr⟩ := shortStampAt_head _ hsh
        rw [hr]
        exact longStampAt_of_colon 58 (r ++ rest) rfl
      simp [h1, h2, ← h]
    · simp [hsh] at h

theorem arrowAt_take (s : JSString) (h : arrowAt s = true) : s.take 5 = arrow := by
  rcases s with _ | ⟨a, _ | ⟨b, _ | ⟨c, _ | ⟨d, _ | ⟨e, r⟩⟩⟩⟩⟩ <;>
    simp_all [arrowAt, atomsAt, Atom.accepts, arrow]

theorem arrowAt_append (rest : JSString) : arrowAt (arrow ++ rest) = true := by
  simp [arrowAt, arrow, atomsAt, Atom.accepts]

/-- A timing line read at the front of the input splits the input into the first
timestamp, the arrow, the second timestamp and the rest. -/
theorem timingLine_split (s : JSString) (n₁ n₂ : Nat) (h : timingLine s = some (n₁, n₂)) :
    s = s.take n₁ ++ arrow ++ (s.drop (n₁ + 5)).take n₂ ++ s.drop (n₁ + 5 + n₂) ∧
      IsStampText (s.take n₁) ∧ IsStampText ((s.drop (n₁ + 5)).take n₂) := by
  unfold timingLine at h
  cases h₁ : stampLen s with
  | none => simp [h₁] at h
  | some m₁ =>
    simp only [h₁] at h
    by_cases ha : arrowAt (s.drop m₁) = true
    · simp only [ha, if_true] at h
      cases h₂ : stampLen (s.drop (m₁ + 5)) with
      | none => simp [h₂] at h
      | some m₂ =>
        simp only [h₂, Option.map_some', Option.some.injEq, Prod.mk.injEq] at h
        obtain ⟨rfl, rfl⟩ := h
        refine ⟨?_, (stampLen_take s m₁ h₁).1, (stampLen_take _ m₂ h₂).1⟩
        have e1 : s = s.take m₁ ++ s.drop m₁ := (List.take_append_drop _ _).symm
        have e2 : s.drop m₁ = arrow ++ s.drop (m₁ + 5) := by
          have := (List.take_append_drop 5 (s.drop m₁)).symm
          rw [arrowAt_take _ ha, List.drop_drop] at this
          exact this
        have e3 : s.drop (m₁ + 5) = (s.drop (m₁ + 5)).take m₂ ++ s.drop (m₁ + 5 + m₂) := by
          have := (List.take_append_drop m₂ (s.drop (m₁ + 5))).symm
          rw [List.drop_drop] at this
          exact this
        calc s = s.take m₁ ++ s.drop m₁ := e1
          _ = s.take m₁ ++ (arrow ++ s.drop (m₁ + 5)) := by rw [← e2]
          _ = s.take m₁ ++ (arrow ++ ((s.drop (m₁ + 5)).take m₂ ++ s.drop (m₁ + 5 + m₂))) := by
            rw [← e3]
          _ = _ := by simp only [List.append_assoc]
    · simp [ha] at h

/-- Two timestamps joined by the arrow are read as a timing line, whatever follows. -/
theorem timingLine_append (a b rest : JSString) (ha : IsStampText a) (hb : IsStampText b) :
    timingLine (a ++ arrow ++ b ++ rest) = some (a.length, b.length) := by
  unfold timingLine
  have h1 : stampLen (a ++ arrow ++ b ++ rest) = some a.length := by
    rw [List.append_assoc, List.append_assoc]
    exact stampLen_append a _ ha
  have h2 : (a ++ arrow ++ b ++ rest).drop a.length = arrow ++ (b ++ rest) := by
    rw [List.append_assoc, List.append_assoc, List.drop_left]
  have h3 : (a ++ arrow ++ b ++ rest).drop (a.length + 5) = b ++ rest := by
    rw [← List.drop_drop, h2]
    rfl
  simp only [h1, h2, arrowAt_append, if_true, h3, stampLen_append b rest hb, Option.map_some']


theorem notTerminator_lf : notTerminator 10 = false := rfl

theorem noLineTerminator_iff (s : JSString) :
    NoLineTerminator s ↔ ∀ c ∈ s, notTerminator c = true := by
  simp [NoLineTerminator, notTerminator]

theorem dropWhile_append_of_all (p : CodeUnit → Bool) (text : JSString) (x : CodeUnit)
    (r : JSString) (hall : ∀ c ∈ text, p c = true) (hx : p x = false) :
    (text ++ x :: r).dropWhile p = x :: r := by
  induction text with
  | nil => simp [List.dropWhile, hx]
  | cons c cs ih =>
    have hc : p c = true := hall c (by simp)
    simp only [List.cons_append, List.dropWhile_cons_of_pos hc]
    exact ih (fun d hd => hall d (by simp [hd]))

theorem takeWhile_append_of_all (p : CodeUnit → Bool) (text : JSString) (x : CodeUnit)
    (r : JSString) (hall : ∀ c ∈ text, p c = true) (hx : p x = false) :
    (text ++ x :: r).takeWhile p = text := by
  induction text with
  | nil => simp [List.takeWhile, hx]
  | cons c cs ih =>
    have hc : p c = true := hall c (by simp)
    simp only [List.cons_append, List.takeWhile_cons_of_pos hc]
    rw [ih (fun d hd => hall d (by simp [hd]))]

theorem takeWhile_of_all_of_rest (p : CodeUnit → Bool) (text rest : JSString)
    (hall : ∀ c ∈ text, p c = true) (hrest : ∀ c r, rest = c :: r → p c = false) :
    (text ++ rest).takeWhile p = text ∧ (text ++ rest).dropWhile p = rest := by
  cases rest with
  | nil =>
    simp only [List.append_nil]
    exact ⟨List.takeWhile_eq_self_iff.mpr hall, List.dropWhile_eq_nil_iff.mpr hall⟩
  | cons x r =>
    have hx := hrest x r rfl
    exact ⟨takeWhile_append_of_all p text x r hall hx, dropWhile_append_of_all p text x r hall hx⟩

/-- A title without line terminators, a line feed and a timing line form a title-layout
block, whatever follows. -/
theorem titleBlockAt_append (text a b rest : JSString) (ht : NoLineTerminator text)
    (ha : IsStampText a) (hb : IsStampText b) :
    titleBlockAt (text ++ 10 :: (a ++ arrow ++ b ++ rest)) = some (⟨text, a, b⟩, rest) := by
  rw [noLineTerminator_iff] at ht
  unfold titleBlockAt
  rw [dropWhile_append_of_all _ _ _ _ ht notTerminator_lf,
    takeWhile_append_of_all _ _ _ _ ht notTerminator_lf]
  simp only [if_true, timingLine_append a b rest ha hb]
  have h1 : (a ++ arrow ++ b ++ rest).take a.length = a := by
    rw [List.append_assoc, List.append_assoc, List.take_left]
  have h2 : (a ++ arrow ++ b ++ rest).drop (a.length + 5) = b ++ rest := by
    have : a.length + 5 = (a ++ arrow).length := by simp [arrow]
    rw [this, List.append_assoc (a ++ arrow), List.drop_left]
  have h3 : (a ++ arrow ++ b ++ rest).drop (a.length + 5 + b.length) = rest := by
    have : a.length + 5 + b.length = (a ++ arrow ++ b).length := by
      simp only [List.length_append, arrow, List.length_cons, List.length_nil]
    rw [this, List.drop_left]
  rw [h1, h2, h3, List.take_left]

/-- A title-layout block at the front of the input splits the input into the text of
the block and the rest; its title has no line terminator and its two captures are
timestamps as the patterns read them. -/
theorem titleBlockAt_split (s : JSString) (b : Block) (rest : JSString)
    (h : titleBlockAt s = some (b, rest)) :
    s = b.titleMatch ++ rest ∧ NoLineTerminator b.text ∧ IsStampText b.start ∧
      IsStampText b.stop := by
  unfold titleBlockAt at h
  have hs := (List.takeWhile_append_dropWhile notTerminator s).symm
  cases hd : s.dropWhile notTerminator with
  | nil => simp [hd] at h
  | cons c r =>
    simp only [hd] at h
    by_cases hc : c = 10
    · subst hc
      simp only [if_true] at h
      cases ht : timingLine r with
      | none => simp [ht] at h
      | some p =>
        obtain ⟨n₁, n₂⟩ := p
        simp only [ht, Option.some.injEq, Prod.mk.injEq] at h
        obtain ⟨rfl, rfl⟩ := h
        obtain ⟨hr, h1, h2⟩ := timingLine_split r n₁ n₂ ht
        refine ⟨?_, ?_, h1, h2⟩
        · simp only [Block.titleMatch]
          rw [hd] at hs
          conv_lhs => rw [hs, hr]
          simp only [List.append_assoc, List.cons_append]
        · rw [noLineTerminator_iff]
          intro c hc
          exact List.mem_takeWhile_imp hc
    · simp [hc] at h

/-- A timing line, a line feed and a title that runs to the end of its line form a
chapter-file block. -/
theorem chapterBlockAt_append (text a b rest : JSString) (ht : NoLineTerminator text)
    (ha : IsStampText a) (hb : IsStampText b)
    (hrest : ∀ c r, rest = c :: r → notTerminator c = false) :
    chapterBlockAt (a ++ arrow ++ b ++ 10 :: (text ++ rest)) = some (⟨text, a, b⟩, rest) := by
  rw [noLineTerminator_iff] at ht
  unfold chapterBlockAt
  simp only [timingLine_append a b _ ha hb]
  have h1 : (a ++ arrow ++ b ++ 10 :: (text ++ rest)).take a.length = a := by
    rw [List.append_assoc, List.append_assoc, List.take_left]
  have h2 : (a ++ arrow ++ b ++ 10 :: (text ++ rest)).drop (a.length + 5)
      = b ++ 10 :: (text ++ rest) := by
    have : a.length + 5 = (a ++ arrow).length := by simp [arrow]
    rw [this, List.append_assoc (a ++ arrow), List.drop_left]
  have h3 : (a ++ arrow ++ b ++ 10 :: (text ++ rest)).drop (a.length + 5 + b.length)
      = 10 :: (text ++ rest) := by
    have : a.length + 5 + b.length = (a ++ arrow ++ b).length := by
      simp only [List.length_append, arrow, List.length_cons, List.length_nil]
    rw [this, List.drop_left]
  obtain ⟨h4, h5⟩ := takeWhile_of_all_of_rest notTerminator text rest ht hrest
  rw [h1, h2, h3, List.take_left]
  simp only [if_true, h4, h5]

/-- A chapter-file block at the front of the input splits the input into the text of
the block and the rest; the title runs to the end of its line. -/
theorem chapterBlockAt_split (s : JSString) (b : Block) (rest : JSString)
    (h : chapterBlockAt s = some (b, rest)) :
    s = b.chapterMatch ++ rest ∧ NoLineTerminator b.text ∧ IsStampText b.start ∧
      IsStampText b.stop ∧ ∀ c r, rest = c :: r → notTerminator c = false := by
  unfold chapterBlockAt at h
  cases ht : timingLine s with
  | none => simp [ht] at h
  | some p =>
    obtain ⟨n₁, n₂⟩ := p
    simp only [ht] at h
    obtain ⟨hs, h1, h2⟩ := timingLine_split s n₁ n₂ ht
    cases hd : s.drop (n₁ + 5 + n₂) with
    | nil => simp [hd] at h
    | cons c r =>
      simp only [hd] at h
      by_cases hc : c = 10
      · subst hc
        simp only [if_true, Option.some.injEq, Prod.mk.injEq] at h
        obtain ⟨rfl, rfl⟩ := h
        refine ⟨?_, ?_, h1, h2, ?_⟩
        · simp only [Block.chapterMatch]
          conv_lhs => rw [hs, hd, ← List.takeWhile_append_dropWhile notTerminator r]
          simp only [List.append_assoc, List.cons_append]
        · rw [noLineTerminator_iff]
          intro c hc
          exact List.mem_takeWhile_imp hc
        · intro c r' hr'
          have := List.head_dropWhile_not notTerminator r (by rw [hr']; simp)
          simpa [hr'] using this
      · simp [hc] at h

theorem titleMatch_length_pos (b : Block) : 0 < b.titleMatch.length := by
  simp [Block.titleMatch]

theorem chapterMatch_length_pos (b : Block) : 0 < b.chapterMatch.length := by
  simp [Block.chapterMatch]


/-! ## The global match loop -/

theorem matchAllLoop_of_none (r : Regex) (fuel : Nat) (input : JSString)
    (h : r.search input = none) : matchAllLoop r (fuel + 1) input = [] := by
  simp [matchAllLoop, h]

theorem matchAllLoop_of_search (r : Regex) (fuel n : Nat) (input m : JSString) (st : MState)
    (h : r.search input = some (n, st)) (hm : input.drop n = m ++ st.rest)
    (hpos : 0 < m.length) :
    matchAllLoop r (fuel + 1) input = m :: matchAllLoop r fuel st.rest := by
  have htake : (input.drop n).take ((input.drop n).length - st.rest.length) = m := by
    rw [hm]; exact take_append_length_sub m st.rest
  simp only [matchAllLoop, h, htake]
  rw [if_neg (by omega)]

/-- With a pattern that matches exactly the blocks of a layout, the loop returns the
texts of the leftmost blocks, in order. -/
theorem matchAllLoop_of_leftmost (r : Regex) (blockAt : JSString → Option (Block × JSString))
    (render : Block → JSString) (caps : Block → List (Nat × JSString))
    (hrun : ∀ s, r.run ⟨s, []⟩ some = (blockAt s).map (fun p => ⟨p.2, caps p.1⟩))
    (hsplit : ∀ s b rest, blockAt s = some (b, rest) →
      s = render b ++ rest ∧ 0 < (render b).length)
    (t : JSString) (blocks : List Block) (h : LeftmostBlocks blockAt t blocks) :
    ∀ fuel, t.length < fuel → matchAllLoop r fuel t = blocks.map render := by
  induction h with
  | nil s hnone =>
    intro fuel hfuel
    obtain ⟨f, rfl⟩ : ∃ f, fuel = f + 1 := ⟨fuel - 1, by omega⟩
    apply matchAllLoop_of_none
    rw [search_eq_none_iff]
    intro pre suf hs
    rw [hrun, hnone pre suf hs]
    rfl
  | cons pre suf rest b bs hfirst hblock _ ih =>
    intro fuel hfuel
    obtain ⟨f, rfl⟩ : ∃ f, fuel = f + 1 := ⟨fuel - 1, by omega⟩
    obtain ⟨hsuf, hpos⟩ := hsplit suf b rest hblock
    have hsearch : r.search (pre ++ suf) = some (pre.length, ⟨rest, caps b⟩) := by
      rw [search_eq_some_iff]
      refine ⟨pre, suf, rfl, rfl, ?_, ?_⟩
      · rw [hrun, hblock]; rfl
      · intro pre' suf' hs hlt
        rw [hrun, hfirst pre' suf' hs hlt]; rfl
    rw [matchAllLoop_of_search r f pre.length (pre ++ suf) (render b) _ hsearch
      (by simp [hsuf]) hpos]
    have hlen : rest.length < f := by
      have := congrArg List.length hsuf
      simp only [List.length_append] at this hfuel
      omega
    simp only [List.map_cons, ih f hlen]

/-- With a pattern that matches exactly the blocks of a layout, what the loop returns
are the texts of the leftmost blocks of the input. -/
theorem leftmost_of_matchAllLoop (r : Regex) (blockAt : JSString → Option (Block × JSString))
    (render : Block → JSString) (caps : Block → List (Nat × JSString))
    (hrun : ∀ s, r.run ⟨s, []⟩ some = (blockAt s).map (fun p => ⟨p.2, caps p.1⟩))
    (hsplit : ∀ s b rest, blockAt s = some (b, rest) →
      s = render b ++ rest ∧ 0 < (render b).length) :
    ∀ fuel t, t.length < fuel →
      ∃ blocks, LeftmostBlocks blockAt t blocks ∧ matchAllLoop r fuel t = blocks.map render := by
  intro fuel
  induction fuel with
  | zero => intro t ht; omega
  | succ f ih =>
    intro t ht
    cases hsearch : r.search t with
    | none =>
      refine ⟨[], LeftmostBlocks.nil t ?_, matchAllLoop_of_none r f t hsearch⟩
      intro pre suf hs
      have := (search_eq_none_iff r t).mp hsearch pre suf hs
      rw [hrun] at this
      cases hb : blockAt suf with
      | none => rfl
      | some p => rw [hb] at this; simp at this
    | some p =>
      obtain ⟨n, st⟩ := p
      obtain ⟨pre, suf, hs, hn, hr, hmin⟩ := (search_eq_some_iff r t n st).mp hsearch
      rw [hrun] at hr
      cases hb : blockAt suf with
      | none => rw [hb] at hr; simp at hr
      | some q =>
        obtain ⟨b, rest⟩ := q
        rw [hb] at hr
        simp only [Option.map_some', Option.some.injEq] at hr
        obtain ⟨hsuf, hpos⟩ := hsplit suf b rest hb
        have hrest : st.rest = rest := by rw [← hr]
        have hlen : rest.length < f := by
          have h1 := congrArg List.length hsuf
          have h2 := congrArg List.length hs
          simp only [List.length_append] at h1 h2
          omega
        obtain ⟨bs, hbs, hloop⟩ := ih rest hlen
        refine ⟨b :: bs, ?_, ?_⟩
        · rw [hs]
          refine LeftmostBlocks.cons pre suf rest b bs ?_ hb hbs
          intro pre' suf' hs' hlt
          have := hmin pre' suf' (by rw [hs, hs']) (by omega)
          rw [hrun] at this
          cases hb' : blockAt suf' with
          | none => rfl
          | some p => rw [hb'] at this; simp at this
        · rw [matchAllLoop_of_search r f n t (render b) st hsearch
            (by rw [hs, ← hn, List.drop_left, hrest, hsuf]) hpos, hrest, hloop]
          rfl


/-! ## The pattern of `convertTimeStampToSeconds` -/

theorem atomsAt_split (as bs : List Atom) (s : JSString) :
    atomsAt (as ++ bs) s = (atomsAt as s && atomsAt bs (s.drop as.length)) := by
  induction as generalizing s with
  | nil => simp [atomsAt]
  | cons a as ih =>
    cases s with
    | nil => cases bs <;> simp [atomsAt]
    | cons c cs => simp [atomsAt, ih, Bool.and_assoc]

theorem run_group_ofAtoms (i : Nat) (a : Atom) (as : List Atom) (st : MState)
    (k : MState → Option MState) :
    (Regex.group i (Regex.ofAtoms a as)).run st k
      = if atomsAt (a :: as) st.rest then
          k ⟨st.rest.drop (as.length + 1), (i, st.rest.take (as.length + 1)) :: st.caps⟩
        else none := by
  rw [run_group, run_ofAtoms]
  by_cases h : atomsAt (a :: as) st.rest = true
  · simp only [h, if_true, take_length_sub_drop]
  · simp [h]

/-- The pattern of source line 11 at the front of `s`: it matches exactly when `s`
starts with `ddd.dd:dd`, and then also reads a following `:dd` when there is one. -/
theorem run_convertRegexp (s : JSString) :
    convertRegexp.run ⟨s, []⟩ some =
      if revClockAt s then
        if atomsAt [.lit 58, .digit, .digit] (s.drop 9) then
          some ⟨s.drop 12, [(4, (s.drop 10).take 2), (3, (s.drop 7).take 2),
            (2, (s.drop 4).take 2), (1, s.take 3)]⟩
        else
          some ⟨s.drop 9, [(3, (s.drop 7).take 2), (2, (s.drop 4).take 2), (1, s.take 3)]⟩
      else none := by
  have hg3 : ∀ i st k, (Regex.group i (.seq (.atom .digit) (.seq (.atom .digit) (.atom .digit)))).run
      st k = _ := fun i st k => run_group_ofAtoms i .digit [.digit, .digit] st k
  have hg2 : ∀ i st k, (Regex.group i (.seq (.atom .digit) (.atom .digit))).run st k = _ :=
    fun i st k => run_group_ofAtoms i .digit [.digit] st k
  have ha : ∀ c st k, (Regex.atom (.lit c)).run st k = _ :=
    fun c st k => run_ofAtoms (.lit c) [] st k
  unfold convertRegexp
  simp only [run_seq, run_opt, hg3, hg2, ha, List.length_cons, List.length_nil, List.drop_drop]
  have hrev : revClockAt s = (atomsAt [.digit, .digit, .digit] s &&
      (atomsAt [.lit 46] (s.drop 3) && (atomsAt [.digit, .digit] (s.drop 4) &&
      (atomsAt [.lit 58] (s.drop 6) && atomsAt [.digit, .digit] (s.drop 7))))) := by
    unfold revClockAt
    rw [show [Atom.digit, .digit, .digit, .lit 46, .digit, .digit, .lit 58, .digit, .digit]
      = [Atom.digit, .digit, .digit] ++ ([Atom.lit 46] ++ ([Atom.digit, .digit] ++
        ([Atom.lit 58] ++ [Atom.digit, .digit]))) from rfl]
    simp only [atomsAt_split, List.length_cons, List.length_nil, List.drop_drop]
  have hopt : atomsAt [.lit 58, .digit, .digit] (s.drop 9)
      = (atomsAt [.lit 58] (s.drop 9) && atomsAt [.digit, .digit] (s.drop 10)) := by
    rw [show [Atom.lit 58, .digit, .digit] = [Atom.lit 58] ++ [Atom.digit, .digit] from rfl]
    simp only [atomsAt_split, List.length_cons, List.length_nil, List.drop_drop]
  rw [hrev, hopt]
  by_cases h1 : atomsAt [.digit, .digit, .digit] s = true <;>
  by_cases h2 : atomsAt [.lit 46] (s.drop 3) = true <;>
  by_cases h3 : atomsAt [.digit, .digit] (s.drop 4) = true <;>
  by_cases h4 : atomsAt [.lit 58] (s.drop 6) = true <;>
  by_cases h5 : atomsAt [.digit, .digit] (s.drop 7) = true <;>
  by_cases h6 : atomsAt [.lit 58] (s.drop 9) = true <;>
  by_cases h7 : atomsAt [.digit, .digit] (s.drop 10) = true <;>
  simp [h1, h2, h3, h4, h5, h6, h7]


/-! ## `convertTimeStampToSeconds` -/

theorem parseInt_two (a b : CodeUnit) (ha : isDigit a = true) (hb : isDigit b = true) :
    parseInt [a, b] = some (twoDigits a b) := by
  simp [parseInt, List.takeWhile, ha, hb, twoDigits]

theorem convertRegexp_groupCount : convertRegexp.groupCount = 4 := rfl

/-- The function in terms of the leftmost match of its pattern in the reversed input. -/
theorem convert_eq (t : JSString) :
    convertTimeStampToSeconds t =
      match convertRegexp.search t.reverse with
      | none => .error (.badlyFormatted t)
      | some p =>
        match capture p.2.caps 2, capture p.2.caps 3 with
        | some m2, some m3 =>
          .ok ((parseInt m2.reverse).bind fun sv =>
            (parseInt m3.reverse).bind fun mv =>
              (match capture p.2.caps 4 with
                | none => some 0
                | some [] => some 0
                | some m4 => parseInt m4.reverse).bind fun hv =>
                some (sv + mv * 60 + hv * 60 * 60))
        | _, _ => .error .typeError := by
  simp only [convertTimeStampToSeconds, reverseString, Regex.matchOnce]
  cases hs : convertRegexp.search t.reverse with
  | none => rfl
  | some p =>
    simp only [Option.map_some', matchArray, convertRegexp_groupCount, List.length_cons,
      List.length_map, List.length_range]
    rw [if_neg (by omega)]
    rfl

/-- The conversion of a well-formed `hh:mm:ss.mmm`. -/
theorem convert_render (t : Stamp) (h : t.WellFormed) :
    convertTimeStampToSeconds t.render = .ok (some t.seconds) := by
  obtain ⟨h₁, h₂, m₁, m₂, s₁, s₂, f₁, f₂, f₃⟩ := t
  obtain ⟨hh₁, hh₂, hm₁, hm₂, hs₁, hs₂, hf₁, hf₂, hf₃⟩ := h
  simp only at hh₁ hh₂ hm₁ hm₂ hs₁ hs₂ hf₁ hf₂ hf₃
  have hrun := run_convertRegexp [f₃, f₂, f₁, 46, s₂, s₁, 58, m₂, m₁, 58, h₂, h₁]
  simp [revClockAt, atomsAt, Atom.accepts, hh₁, hh₂, hm₁, hm₂, hs₁, hs₂, hf₁, hf₂, hf₃] at hrun
  have hrev : [h₁, h₂, 58, m₁, m₂, 58, s₁, s₂, 46, f₁, f₂, f₃].reverse
      = [f₃, f₂, f₁, 46, s₂, s₁, 58, m₂, m₁, 58, h₂, h₁] := rfl
  rw [convert_eq, Stamp.render, hrev, search_of_run _ _ _ hrun]
  simp [capture, parseInt_two, hh₁, hh₂, hm₁, hm₂, hs₁, hs₂, Stamp.seconds]
  ring

theorem containsClock_iff (s : JSString) : ContainsClock s ↔ s.tails.any clockAt = true := by
  simp only [ContainsClock, List.any_eq_true, List.mem_tails]
  constructor
  · rintro ⟨pre, suf, hs, hc⟩
    exact ⟨suf, ⟨pre, hs.symm⟩, hc⟩
  · rintro ⟨suf, ⟨pre, hs⟩, hc⟩
    exact ⟨pre, suf, hs.symm, hc⟩

/-- Where the reversed input starts with `ddd.dd:dd`, the input has `dd:dd.ddd`. -/
theorem containsClock_of_revClockAt (pre suf : JSString) (h : revClockAt suf = true) :
    ContainsClock (pre ++ suf).reverse := by
  rcases suf with _ | ⟨a, _ | ⟨b, _ | ⟨c, _ | ⟨d, _ | ⟨e, _ | ⟨f, _ | ⟨g, _ | ⟨i, _ | ⟨j, r⟩⟩⟩⟩⟩⟩⟩⟩⟩ <;>
    simp only [revClockAt, atomsAt, Bool.and_false, Bool.false_eq_true] at h
  simp only [Bool.and_true, Bool.and_eq_true] at h
  obtain ⟨ha, hb, hc, hd, he, hf, hg, hi, hj⟩ := h
  refine ⟨r.reverse, [j, i, g, f, e, d, c, b, a] ++ pre.reverse, by simp, ?_⟩
  simp [clockAt, atomsAt, ha, hb, hc, hd, he, hf, hg, hi, hj]

/-- Without a substring `dd:dd.ddd` the pattern finds nothing in the reversed input. -/
theorem search_convertRegexp_none (t : JSString) (h : ¬ ContainsClock t) :
    convertRegexp.search t.reverse = none := by
  rw [search_eq_none_iff]
  intro pre suf hs
  rw [run_convertRegexp]
  by_cases hr : revClockAt suf = true
  · exfalso
    apply h
    have := containsClock_of_revClockAt pre suf hr
    rwa [← hs, List.reverse_reverse] at this
  · simp [hr]

/-- C1: for all two-digit groups `hh`, `mm`, `ss` and every three-digit group `mmm` of
ASCII digits, `convertTimeStampToSeconds("hh:mm:ss.mmm")` returns
`ss + 60*mm + 3600*hh`; the millisecond digits do not enter the result. -/
theorem convertTimeStampToSeconds_full (h₁ h₂ m₁ m₂ s₁ s₂ f₁ f₂ f₃ : CodeUnit)
    (hh₁ : isDigit h₁ = true) (hh₂ : isDigit h₂ = true)
    (hm₁ : isDigit m₁ = true) (hm₂ : isDigit m₂ = true)
    (hs₁ : isDigit s₁ = true) (hs₂ : isDigit s₂ = true)
    (hf₁ : isDigit f₁ = true) (hf₂ : isDigit f₂ = true) (hf₃ : isDigit f₃ = true) :
    convertTimeStampToSeconds [h₁, h₂, 58, m₁, m₂, 58, s₁, s₂, 46, f₁, f₂, f₃]
      = .ok (some (twoDigits s₁ s₂ + 60 * twoDigits m₁ m₂ + 3600 * twoDigits h₁ h₂)) :=
  convert_render ⟨h₁, h₂, m₁, m₂, s₁, s₂, f₁, f₂, f₃⟩
    ⟨hh₁, hh₂, hm₁, hm₂, hs₁, hs₂, hf₁, hf₂, hf₃⟩

/-- C1 at `"00:00:01.000"`, `"00:01:00.000"` and `"01:00:00.000"`, and at two inputs
that differ in the millisecond digits only. -/
theorem convertTimeStampToSeconds_full_witness :
    convertTimeStampToSeconds (js "00:00:01.000") = .ok (some 1) ∧
    convertTimeStampToSeconds (js "00:01:00.000") = .ok (some 60) ∧
    convertTimeStampToSeconds (js "01:00:00.000") = .ok (some 3600) ∧
    convertTimeStampToSeconds (js "12:34:56.789") = .ok (some 45296) ∧
    convertTimeStampToSeconds (js "12:34:56.000") = .ok (some 45296) :=
  ⟨convertTimeStampToSeconds_full 48 48 48 48 48 49 48 48 48 rfl rfl rfl rfl rfl rfl rfl rfl rfl,
   convertTimeStampToSeconds_full 48 48 48 49 48 48 48 48 48 rfl rfl rfl rfl rfl rfl rfl rfl rfl,
   convertTimeStampToSeconds_full 48 49 48 48 48 48 48 48 48 rfl rfl rfl rfl rfl rfl rfl rfl rfl,
   convertTimeStampToSeconds_full 49 50 51 52 53 54 55 56 57 rfl rfl rfl rfl rfl rfl rfl rfl rfl,
   convertTimeStampToSeconds_full 49 50 51 52 53 54 48 48 48 rfl rfl rfl rfl rfl rfl rfl rfl rfl⟩

/-- C2: for all two-digit groups `mm`, `ss` and every three-digit group `mmm` of ASCII
digits, `convertTimeStampToSeconds("mm:ss.mmm")` succeeds and returns `ss + 60*mm`:
the absent hours count as 0. -/
theorem convertTimeStampToSeconds_short (m₁ m₂ s₁ s₂ f₁ f₂ f₃ : CodeUnit)
    (hm₁ : isDigit m₁ = true) (hm₂ : isDigit m₂ = true)
    (hs₁ : isDigit s₁ = true) (hs₂ : isDigit s₂ = true)
    (hf₁ : isDigit f₁ = true) (hf₂ : isDigit f₂ = true) (hf₃ : isDigit f₃ = true) :
    convertTimeStampToSeconds [m₁, m₂, 58, s₁, s₂, 46, f₁, f₂, f₃]
      = .ok (some (twoDigits s₁ s₂ + 60 * twoDigits m₁ m₂)) := by
  have hrun := run_convertRegexp [f₃, f₂, f₁, 46, s₂, s₁, 58, m₂, m₁]
  simp [revClockAt, atomsAt, Atom.accepts, hm₁, hm₂, hs₁, hs₂, hf₁, hf₂, hf₃] at hrun
  have hrev : [m₁, m₂, 58, s₁, s₂, 46, f₁, f₂, f₃].reverse
      = [f₃, f₂, f₁, 46, s₂, s₁, 58, m₂, m₁] := rfl
  rw [convert_eq, hrev, search_of_run _ _ _ hrun]
  simp [capture, parseInt_two, hm₁, hm₂, hs₁, hs₂]
  ring

/-- C2 at `"00:00.000"` and at `"59:07.250"`. -/
theorem convertTimeStampToSeconds_short_witness :
    convertTimeStampToSeconds (js "00:00.000") = .ok (some 0) ∧
    convertTimeStampToSeconds (js "59:07.250") = .ok (some 3547) :=
  ⟨convertTimeStampToSeconds_short 48 48 48 48 48 48 48 rfl rfl rfl rfl rfl rfl rfl,
   convertTimeStampToSeconds_short 53 57 48 55 50 53 48 rfl rfl rfl rfl rfl rfl rfl⟩

/-- C3 as stated fails: `"00:01:00.000Z"` is not of the shape `dd:dd.ddd` or
`dd:dd:dd.ddd`, and `convertTimeStampToSeconds` returns 60 on it. -/
theorem convertTimeStampToSeconds_extra_character :
    isTimestampText (js "00:01:00.000Z") = false ∧
    convertTimeStampToSeconds (js "00:01:00.000Z") = .ok (some 60) := by
  decide

/-- C3, amended: for every input that contains no contiguous substring of the shape
`dd:dd.ddd`, `convertTimeStampToSeconds` fails with the error
"Badly formatted timestamp" for that input and returns no value. -/
theorem convertTimeStampToSeconds_malformed (t : JSString) (h : ¬ ContainsClock t) :
    convertTimeStampToSeconds t = .error (.badlyFormatted t) := by
  rw [convert_eq, search_convertRegexp_none t h]

/-- C3, amended, at the empty string, at `"12:3:45.678"` (a one-digit group), at
`"12:34:56,789"` (no `.` separator) and at `"12:34:56.78"` (two millisecond digits). -/
theorem convertTimeStampToSeconds_malformed_witness :
    convertTimeStampToSeconds (js "") = .error (.badlyFormatted (js "")) ∧
    convertTimeStampToSeconds (js "12:3:45.678") = .error (.badlyFormatted (js "12:3:45.678")) ∧
    convertTimeStampToSeconds (js "12:34:56,789")
      = .error (.badlyFormatted (js "12:34:56,789")) ∧
    convertTimeStampToSeconds (js "12:34:56.78") = .error (.badlyFormatted (js "12:34:56.78")) :=
  ⟨convertTimeStampToSeconds_malformed _ ((containsClock_iff _).not.mpr (by decide)),
   convertTimeStampToSeconds_malformed _ ((containsClock_iff _).not.mpr (by decide)),
   convertTimeStampToSeconds_malformed _ ((containsClock_iff _).not.mpr (by decide)),
   convertTimeStampToSeconds_malformed _ ((containsClock_iff _).not.mpr (by decide))⟩

/-- C4 as stated fails: `convertTimeStampToSeconds("1:00:00.000")` returns 0. -/
theorem convertTimeStampToSeconds_one_digit_hour_example :
    convertTimeStampToSeconds (js "1:00:00.000") = .ok (some 0) := by
  decide

/-- C4, amended: for every timestamp `"h:mm:ss.mmm"` with a single-digit hour segment
(`mm`, `ss` two ASCII digits, `mmm` three), `convertTimeStampToSeconds` succeeds and
returns `ss + 60*mm`: the hour digit does not enter the result. -/
theorem convertTimeStampToSeconds_one_digit_hour (h m₁ m₂ s₁ s₂ f₁ f₂ f₃ : CodeUnit)
    (hh : isDigit h = true)
    (hm₁ : isDigit m₁ = true) (hm₂ : isDigit m₂ = true)
    (hs₁ : isDigit s₁ = true) (hs₂ : isDigit s₂ = true)
    (hf₁ : isDigit f₁ = true) (hf₂ : isDigit f₂ = true) (hf₃ : isDigit f₃ = true) :
    convertTimeStampToSeconds [h, 58, m₁, m₂, 58, s₁, s₂, 46, f₁, f₂, f₃]
      = .ok (some (twoDigits s₁ s₂ + 60 * twoDigits m₁ m₂)) := by
  have hrun := run_convertRegexp [f₃, f₂, f₁, 46, s₂, s₁, 58, m₂, m₁, 58, h]
  simp [revClockAt, atomsAt, Atom.accepts, hh, hm₁, hm₂, hs₁, hs₂, hf₁, hf₂, hf₃] at hrun
  have hrev : [h, 58, m₁, m₂, 58, s₁, s₂, 46, f₁, f₂, f₃].reverse
      = [f₃, f₂, f₁, 46, s₂, s₁, 58, m₂, m₁, 58, h] := rfl
  rw [convert_eq, hrev, search_of_run _ _ _ hrun]
  simp [capture, parseInt_two, hm₁, hm₂, hs₁, hs₂]
  ring

/-- C4, amended, at `"1:00:00.000"` and at `"7:02:03.999"`. -/
theorem convertTimeStampToSeconds_one_digit_hour_witness :
    convertTimeStampToSeconds (js "1:00:00.000") = .ok (some 0) ∧
    convertTimeStampToSeconds (js "7:02:03.999") = .ok (some 123) :=
  ⟨convertTimeStampToSeconds_one_digit_hour 49 48 48 48 48 48 48 48
      rfl rfl rfl rfl rfl rfl rfl rfl,
   convertTimeStampToSeconds_one_digit_hour 55 48 50 48 51 57 57 57
      rfl rfl rfl rfl rfl rfl rfl rfl⟩


/-! ## The callbacks -/

theorem titlesRegexp_groupCount : titlesRegexp.groupCount = 3 := rfl

theorem chaptersSubregexp_groupCount : chaptersSubregexp.groupCount = 3 := rfl

/-- On the text of a block the callback of `titlesToTimestamps` finds the block again
and builds the chapter object from its captures. -/
theorem titlesCallback_titleMatch (b : Block) (ht : NoLineTerminator b.text)
    (ha : IsStampText b.start) (hb : IsStampText b.stop) :
    titlesCallback b.titleMatch = buildChapter b := by
  have hblock : titleBlockAt b.titleMatch = some (b, []) := by
    have := titleBlockAt_append b.text b.start b.stop [] ht ha hb
    simpa [Block.titleMatch] using this
  have hrun := run_titlesRegexp_eq b.titleMatch
  rw [hblock] at hrun
  simp only [titlesCallback, Regex.matchOnce, search_of_run _ _ _ hrun, Option.map_some',
    matchArray, titlesRegexp_groupCount]
  rfl

/-- On the text of a block the callback of `chaptersToTimestamps` finds the block again
and builds the chapter object from its captures. -/
theorem chaptersCallback_chapterMatch (b : Block) (ht : NoLineTerminator b.text)
    (ha : IsStampText b.start) (hb : IsStampText b.stop) :
    chaptersCallback b.chapterMatch = buildChapter b := by
  have hblock : chapterBlockAt b.chapterMatch = some (b, []) := by
    have := chapterBlockAt_append b.text b.start b.stop [] ht ha hb (by simp)
    simpa [Block.chapterMatch] using this
  have hrun := run_chaptersSubregexp_eq b.chapterMatch
  rw [hblock] at hrun
  simp only [chaptersCallback, Regex.matchOnce, search_of_run _ _ _ hrun, Option.map_some',
    matchArray, chaptersSubregexp_groupCount]
  rfl

/-- The pattern of a layout matches exactly the blocks of the layout. -/
theorem layout_run (l : Layout) :
    ∃ caps : Block → List (Nat × JSString),
      ∀ s, l.regexp.run ⟨s, []⟩ some = (l.blockAt s).map (fun p => ⟨p.2, caps p.1⟩) := by
  cases l with
  | titles =>
    exact ⟨fun b => [(3, b.stop), (2, b.start), (1, b.text)], run_titlesRegexp_eq⟩
  | chapters => exact ⟨fun _ => [], run_chaptersRegexp_eq⟩

/-- A block at the front of the input: the input is the text of the block and the rest,
and the block is well formed. -/
theorem layout_split (l : Layout) (s : JSString) (b : Block) (rest : JSString)
    (h : l.blockAt s = some (b, rest)) :
    s = l.render b ++ rest ∧ 0 < (l.render b).length ∧ NoLineTerminator b.text ∧
      IsStampText b.start ∧ IsStampText b.stop := by
  cases l with
  | titles =>
    obtain ⟨h1, h2, h3, h4⟩ := titleBlockAt_split s b rest h
    exact ⟨h1, titleMatch_length_pos b, h2, h3, h4⟩
  | chapters =>
    obtain ⟨h1, h2, h3, h4, -⟩ := chapterBlockAt_split s b rest h
    exact ⟨h1, chapterMatch_length_pos b, h2, h3, h4⟩

theorem layout_callback (l : Layout) (b : Block) (ht : NoLineTerminator b.text)
    (ha : IsStampText b.start) (hb : IsStampText b.stop) :
    l.callback (l.render b) = buildChapter b := by
  cases l with
  | titles => exact titlesCallback_titleMatch b ht ha hb
  | chapters => exact chaptersCallback_chapterMatch b ht ha hb

/-- Every block of a transcript is well formed. -/
theorem leftmostBlocks_wf (l : Layout) (t : JSString) (blocks : List Block)
    (h : LeftmostBlocks l.blockAt t blocks) :
    ∀ b ∈ blocks, NoLineTerminator b.text ∧ IsStampText b.start ∧ IsStampText b.stop := by
  induction h with
  | nil s hnone => simp
  | cons pre suf rest b bs hfirst hblock _ ih =>
    intro b' hb'
    rcases List.mem_cons.mp hb' with rfl | hmem
    · exact (layout_split l suf _ rest hblock).2.2
    · exact ih b' hmem

theorem mapM_callback_render (l : Layout) (blocks : List Block)
    (hwf : ∀ b ∈ blocks, NoLineTerminator b.text ∧ IsStampText b.start ∧ IsStampText b.stop) :
    (blocks.map l.render).mapM l.callback = blocks.mapM buildChapter := by
  induction blocks with
  | nil => rfl
  | cons b bs ih =>
    obtain ⟨h1, h2, h3⟩ := hwf b (by simp)
    simp only [List.map_cons, List.mapM_cons, layout_callback l b h1 h2 h3,
      ih (fun b' hb' => hwf b' (by simp [hb']))]

/-- The extractor of a layout in terms of the blocks of the transcript. -/
theorem extract_of_leftmost (l : Layout) (t : JSString) (blocks : List Block)
    (h : LeftmostBlocks l.blockAt t blocks) :
    l.extract t =
      match blocks with
      | [] =>
        match l with
        | .titles => .error .typeError
        | .chapters => .error .noChapters
      | b :: bs => (b :: bs).mapM buildChapter := by
  obtain ⟨caps, hrun⟩ := layout_run l
  have hloop := matchAllLoop_of_leftmost l.regexp l.blockAt l.render caps hrun
    (fun s b rest hb => ⟨(layout_split l s b rest hb).1, (layout_split l s b rest hb).2.1⟩)
    t blocks h (t.length + 1) (Nat.lt_succ_self _)
  have hcb := mapM_callback_render l blocks (leftmostBlocks_wf l t blocks h)
  cases l with
  | titles =>
    simp only [Layout.extract, titlesToTimestamps, Regex.matchGlobal]
    simp only [Layout.regexp] at hloop
    rw [hloop]
    cases blocks with
    | nil => rfl
    | cons b bs =>
      simp only [List.map_cons, List.length_cons]
      rw [if_neg (by omega)]
      exact hcb
  | chapters =>
    simp only [Layout.extract, chaptersToTimestamps, Regex.matchGlobal]
    simp only [Layout.regexp] at hloop
    rw [hloop]
    cases blocks with
    | nil => rfl
    | cons b bs => exact hcb

/-- Every transcript has its list of leftmost blocks. -/
theorem leftmostBlocks_exists (l : Layout) (t : JSString) :
    ∃ blocks, LeftmostBlocks l.blockAt t blocks := by
  obtain ⟨caps, hrun⟩ := layout_run l
  obtain ⟨blocks, h, -⟩ := leftmost_of_matchAllLoop l.regexp l.blockAt l.render caps hrun
    (fun s b rest hb => ⟨(layout_split l s b rest hb).1, (layout_split l s b rest hb).2.1⟩)
    (t.length + 1) t (Nat.lt_succ_self _)
  exact ⟨blocks, h⟩


/-! ## Transcripts written from a list of chapters -/

theorem render_isStampText (t : Stamp) (h : t.WellFormed) : IsStampText t.render := by
  obtain ⟨h₁, h₂, m₁, m₂, s₁, s₂, f₁, f₂, f₃⟩ := t
  obtain ⟨hh₁, hh₂, hm₁, hm₂, hs₁, hs₂, hf₁, hf₂, hf₃⟩ := h
  simp only at hh₁ hh₂ hm₁ hm₂ hs₁ hs₂ hf₁ hf₂ hf₃
  simp [IsStampText, stampLen, longStampAt, Stamp.render, atomsAt, Atom.accepts,
    hh₁, hh₂, hm₁, hm₂, hs₁, hs₂, hf₁, hf₂, hf₃, isLineTerminator]

theorem block_wf (c : ChapterSpec) (ht : NoLineTerminator c.title)
    (hs : c.start.WellFormed) (he : c.stop.WellFormed) :
    NoLineTerminator c.block.text ∧ IsStampText c.block.start ∧ IsStampText c.block.stop :=
  ⟨ht, render_isStampText _ hs, render_isStampText _ he⟩

theorem buildChapter_block (c : ChapterSpec) (hs : c.start.WellFormed)
    (he : c.stop.WellFormed) : buildChapter c.block = .ok c.record := by
  simp only [buildChapter, ChapterSpec.block, convert_render _ hs, convert_render _ he]
  rfl

theorem mapM_buildChapter_blocks (cs : List ChapterSpec)
    (h : ∀ c ∈ cs, c.start.WellFormed ∧ c.stop.WellFormed) :
    (cs.map ChapterSpec.block).mapM buildChapter = .ok (cs.map ChapterSpec.record) := by
  induction cs with
  | nil => rfl
  | cons c cs ih =>
    obtain ⟨hs, he⟩ := h c (by simp)
    simp only [List.map_cons, List.mapM_cons, buildChapter_block c hs he,
      ih (fun c' hc' => h c' (by simp [hc']))]
    rfl

theorem joinLines_append (b : JSString) (bs : List JSString) (tail : JSString) :
    joinLines (b :: bs) ++ tail = b ++ restLines bs tail := by
  induction bs generalizing b with
  | nil => rfl
  | cons b' bs ih =>
    show (b ++ 10 :: joinLines (b' :: bs)) ++ tail = b ++ (10 :: (b' ++ restLines bs tail))
    rw [List.append_assoc, List.cons_append, ih]

/-- A chain of atoms none of which accepts `x` is read in `t ++ x :: r` exactly when it
is read in `t`. -/
theorem atomsAt_append_reject (as : List Atom) (t : JSString) (x : CodeUnit) (r : JSString)
    (hrej : ∀ a ∈ as, a.accepts x = false) :
    atomsAt as (t ++ x :: r) = atomsAt as t := by
  induction as generalizing t with
  | nil => cases t <;> rfl
  | cons a as ih =>
    cases t with
    | nil => simp [atomsAt, hrej a (by simp)]
    | cons c cs =>
      have := ih cs (fun a' ha' => hrej a' (by simp [ha']))
      show (a.accepts c && atomsAt as (cs ++ x :: r)) = (a.accepts c && atomsAt as cs)
      rw [this]

theorem stampLen_append_lf (t r : JSString) : stampLen (t ++ 10 :: r) = stampLen t := by
  unfold stampLen longStampAt shortStampAt
  rw [atomsAt_append_reject _ t 10 r (by decide), atomsAt_append_reject _ t 10 r (by decide)]

theorem arrowAt_append_lf (t r : JSString) : arrowAt (t ++ 10 :: r) = arrowAt t := by
  unfold arrowAt
  rw [atomsAt_append_reject _ t 10 r (by decide)]

/-- A timing line does not reach over a line feed. -/
theorem timingLine_append_lf (t r : JSString) : timingLine (t ++ 10 :: r) = timingLine t := by
  unfold timingLine
  rw [stampLen_append_lf]
  cases h₁ : stampLen t with
  | none => rfl
  | some n₁ =>
    have hle := stampLen_le t n₁ h₁
    simp only []
    rw [List.drop_append_of_le_length hle, arrowAt_append_lf]
    by_cases ha : arrowAt (t.drop n₁) = true
    · have hle5 : n₁ + 5 ≤ t.length := by
        have := atomsAt_length _ _ ha
        simp only [List.length_cons, List.length_nil, List.length_drop] at this
        omega
      simp only [ha, if_true]
      rw [List.drop_append_of_le_length hle5, stampLen_append_lf]
    · simp [ha]

theorem titleBlockAt_lf (s : JSString) (h : timingLine s = none) :
    titleBlockAt (10 :: s) = none := by
  simp [titleBlockAt, List.dropWhile, notTerminator_lf, h]

theorem chapterBlockAt_lf (s : JSString) : chapterBlockAt (10 :: s) = none := by
  have : timingLine (10 :: s) = none := by
    cases s <;> simp [timingLine, stampLen, longStampAt, shortStampAt, atomsAt, Atom.accepts, isDigit]
  simp [chapterBlockAt, this]


theorem titleBlockAt_none_of_tail (tail : JSString)
    (htail : ∀ a b, tail = a ++ 10 :: b → timingLineAt b = false) :
    ∀ pre suf, tail = pre ++ suf → titleBlockAt suf = none := by
  intro pre suf hs
  cases hb : titleBlockAt suf with
  | none => rfl
  | some p =>
    exfalso
    obtain ⟨b, rest⟩ := p
    obtain ⟨hsuf, -, ha, hb'⟩ := titleBlockAt_split suf b rest hb
    have ht := timingLine_append b.start b.stop rest ha hb'
    have := htail (pre ++ b.text) (b.start ++ arrow ++ b.stop ++ rest) (by
      rw [hs, hsuf]; simp [Block.titleMatch])
    unfold timingLineAt at this
    rw [ht] at this
    simp at this

/-- Behind the first block of a title-layout transcript written from chapters, the
blocks are those of the remaining chapters. -/
theorem leftmost_titles_rest (cs : List ChapterSpec) (tail : JSString)
    (htitle : ∀ c ∈ cs, NoLineTerminator c.title ∧ timingLineAt c.title = false)
    (hstamp : ∀ c ∈ cs, c.start.WellFormed ∧ c.stop.WellFormed)
    (htail : ∀ a b, tail = a ++ 10 :: b → timingLineAt b = false) :
    LeftmostBlocks titleBlockAt (restLines (cs.map ChapterSpec.titleBlock) tail)
      (cs.map ChapterSpec.block) := by
  induction cs with
  | nil => exact LeftmostBlocks.nil tail (titleBlockAt_none_of_tail tail htail)
  | cons c cs ih =>
    obtain ⟨ht, hnt⟩ := htitle c (by simp)
    obtain ⟨hs, he⟩ := hstamp c (by simp)
    have ih' := ih (fun c' hc' => htitle c' (by simp [hc'])) (fun c' hc' => hstamp c' (by simp [hc']))
    have hshape : c.titleBlock ++ restLines (cs.map ChapterSpec.titleBlock) tail
        = c.title ++ 10 :: (c.start.render ++ arrow ++ c.stop.render ++
            restLines (cs.map ChapterSpec.titleBlock) tail) := by
      simp [ChapterSpec.titleBlock, ChapterSpec.timing]
    show LeftmostBlocks titleBlockAt
      ([10] ++ (c.titleBlock ++ restLines (cs.map ChapterSpec.titleBlock) tail))
      (c.block :: cs.map ChapterSpec.block)
    refine LeftmostBlocks.cons [10] _ _ c.block _ ?_ ?_ ih'
    · intro pre' suf' hs' hlt
      cases pre' with
      | cons x xs => simp at hlt
      | nil =>
        have hsuf : suf' = 10 :: (c.titleBlock ++ restLines (cs.map ChapterSpec.titleBlock) tail) := by
          simpa using hs'.symm
        rw [hsuf]
        apply titleBlockAt_lf
        rw [hshape, timingLine_append_lf]
        simpa [timingLineAt] using hnt
    · rw [hshape]
      exact titleBlockAt_append c.title _ _ _ ht (render_isStampText _ hs)
        (render_isStampText _ he)

/-- The blocks of a title-layout transcript written from chapters are the chapters. Only
the titles behind the first must not begin with a timing line. -/
theorem leftmost_titles (c : ChapterSpec) (cs : List ChapterSpec) (tail : JSString)
    (ht : NoLineTerminator c.title) (hs : c.start.WellFormed) (he : c.stop.WellFormed)
    (htitle : ∀ c ∈ cs, NoLineTerminator c.title ∧ timingLineAt c.title = false)
    (hstamp : ∀ c ∈ cs, c.start.WellFormed ∧ c.stop.WellFormed)
    (htail : ∀ a b, tail = a ++ 10 :: b → timingLineAt b = false) :
    LeftmostBlocks titleBlockAt (joinLines ((c :: cs).map ChapterSpec.titleBlock) ++ tail)
      ((c :: cs).map ChapterSpec.block) := by
  rw [List.map_cons, joinLines_append]
  have hshape : c.titleBlock ++ restLines (cs.map ChapterSpec.titleBlock) tail
      = c.title ++ 10 :: (c.start.render ++ arrow ++ c.stop.render ++
          restLines (cs.map ChapterSpec.titleBlock) tail) := by
    simp [ChapterSpec.titleBlock, ChapterSpec.timing]
  show LeftmostBlocks titleBlockAt
    ([] ++ (c.titleBlock ++ restLines (cs.map ChapterSpec.titleBlock) tail))
    (c.block :: cs.map ChapterSpec.block)
  refine LeftmostBlocks.cons [] _ _ c.block _ ?_ ?_ (leftmost_titles_rest cs tail htitle hstamp htail)
  · intro pre' suf' _ hlt
    simp at hlt
  · rw [hshape]
    exact titleBlockAt_append c.title _ _ _ ht (render_isStampText _ hs)
      (render_isStampText _ he)

theorem restLines_head (bs : List JSString) :
    ∀ c r, restLines bs [] = c :: r → notTerminator c = false := by
  intro c r h
  cases bs with
  | nil => simp [restLines] at h
  | cons b bs =>
    simp only [restLines, List.cons.injEq] at h
    rw [← h.1]
    rfl

theorem chapterBlock_shape (c : ChapterSpec) (r : JSString) :
    c.chapterBlock ++ r = c.start.render ++ arrow ++ c.stop.render ++ 10 :: (c.title ++ r) := by
  simp [ChapterSpec.chapterBlock, ChapterSpec.timing]

theorem leftmost_chapters_rest (cs : List ChapterSpec)
    (htitle : ∀ c ∈ cs, NoLineTerminator c.title)
    (hstamp : ∀ c ∈ cs, c.start.WellFormed ∧ c.stop.WellFormed) :
    LeftmostBlocks chapterBlockAt (restLines (cs.map ChapterSpec.chapterBlock) [])
      (cs.map ChapterSpec.block) := by
  induction cs with
  | nil =>
    refine LeftmostBlocks.nil [] ?_
    intro pre suf hs
    have hsuf : suf = [] := by
      have := congrArg List.length hs
      simp only [restLines, List.map_nil, List.length_nil, List.length_append] at this
      exact List.length_eq_zero.mp (by omega)
    subst hsuf
    rfl
  | cons c cs ih =>
    have ht := htitle c (by simp)
    obtain ⟨hs, he⟩ := hstamp c (by simp)
    have ih' := ih (fun c' hc' => htitle c' (by simp [hc'])) (fun c' hc' => hstamp c' (by simp [hc']))
    show LeftmostBlocks chapterBlockAt
      ([10] ++ (c.chapterBlock ++ restLines (cs.map ChapterSpec.chapterBlock) []))
      (c.block :: cs.map ChapterSpec.block)
    refine LeftmostBlocks.cons [10] _ _ c.block _ ?_ ?_ ih'
    · intro pre' suf' hs' hlt
      cases pre' with
      | cons x xs => simp at hlt
      | nil =>
        have hsuf : suf' = 10 :: (c.chapterBlock ++ restLines (cs.map ChapterSpec.chapterBlock) []) := by
          simpa using hs'.symm
        rw [hsuf]
        exact chapterBlockAt_lf _
    · rw [chapterBlock_shape]
      exact chapterBlockAt_append c.title _ _ _ ht (render_isStampText _ hs)
        (render_isStampText _ he) (restLines_head _)

/-- The blocks of a chapter-file transcript written from chapters are the chapters. -/
theorem leftmost_chapters (c : ChapterSpec) (cs : List ChapterSpec)
    (htitle : ∀ c' ∈ c :: cs, NoLineTerminator c'.title)
    (hstamp : ∀ c' ∈ c :: cs, c'.start.WellFormed ∧ c'.stop.WellFormed) :
    LeftmostBlocks chapterBlockAt (joinLines ((c :: cs).map ChapterSpec.chapterBlock))
      ((c :: cs).map ChapterSpec.block) := by
  have ht := htitle c (by simp)
  obtain ⟨hs, he⟩ := hstamp c (by simp)
  rw [← List.append_nil (joinLines _), List.map_cons, joinLines_append]
  show LeftmostBlocks chapterBlockAt
    ([] ++ (c.chapterBlock ++ restLines (cs.map ChapterSpec.chapterBlock) []))
    (c.block :: cs.map ChapterSpec.block)
  refine LeftmostBlocks.cons [] _ _ c.block _ ?_ ?_
    (leftmost_chapters_rest cs (fun c' hc' => htitle c' (by simp [hc']))
      (fun c' hc' => hstamp c' (by simp [hc'])))
  · intro pre' suf' _ hlt
    simp at hlt
  · rw [chapterBlock_shape]
    exact chapterBlockAt_append c.title _ _ _ ht (render_isStampText _ hs)
      (render_isStampText _ he) (restLines_head _)

/-- The result of `titlesToTimestamps` on a title-layout transcript written from
chapters; only the titles behind the first must not begin with a timing line. -/
theorem titles_of_chapters (c : ChapterSpec) (cs : List ChapterSpec) (tail : JSString)
    (ht : NoLineTerminator c.title) (hs : c.start.WellFormed) (he : c.stop.WellFormed)
    (htitle : ∀ c ∈ cs, NoLineTerminator c.title ∧ timingLineAt c.title = false)
    (hstamp : ∀ c ∈ cs, c.start.WellFormed ∧ c.stop.WellFormed)
    (htail : ∀ a b, tail = a ++ 10 :: b → timingLineAt b = false) :
    titlesToTimestamps (joinLines ((c :: cs).map ChapterSpec.titleBlock) ++ tail)
      = .ok ((c :: cs).map ChapterSpec.record) := by
  have h := extract_of_leftmost .titles _ _ (leftmost_titles c cs tail ht hs he htitle hstamp htail)
  simp only [Layout.extract, List.map_cons] at h
  rw [List.map_cons, h]
  apply mapM_buildChapter_blocks (c :: cs)
  intro c' hc'
  rcases List.mem_cons.mp hc' with rfl | hmem
  · exact ⟨hs, he⟩
  · exact hstamp c' hmem

/-- The result of `chaptersToTimestamps` on a chapter-file transcript written from
chapters. -/
theorem chapters_of_chapters (c : ChapterSpec) (cs : List ChapterSpec)
    (htitle : ∀ c' ∈ c :: cs, NoLineTerminator c'.title)
    (hstamp : ∀ c' ∈ c :: cs, c'.start.WellFormed ∧ c'.stop.WellFormed) :
    chaptersToTimestamps (joinLines ((c :: cs).map ChapterSpec.chapterBlock))
      = .ok ((c :: cs).map ChapterSpec.record) := by
  have h := extract_of_leftmost .chapters _ _ (leftmost_chapters c cs htitle hstamp)
  simp only [Layout.extract, List.map_cons] at h
  rw [List.map_cons, h]
  exact mapM_buildChapter_blocks (c :: cs) hstamp


theorem not_hasTitleBlock_iff (t : JSString) :
    ¬ HasTitleBlock t ↔ ∀ a b, t = a ++ 10 :: b → timingLineAt b = false := by
  simp only [HasTitleBlock, not_exists, not_and, Bool.not_eq_true]

/-- Having no title-layout block, as a check of every position of the text. -/
theorem not_hasTitleBlock_of_check (t : JSString)
    (h : t.tails.all (fun s => !(s.head? == some 10 && timingLineAt s.tail)) = true) :
    ¬ HasTitleBlock t := by
  rw [not_hasTitleBlock_iff]
  simp only [List.all_eq_true, List.mem_tails, Bool.not_eq_true', Bool.and_eq_false_imp] at h
  intro a b hab
  have := h (10 :: b) ⟨a, hab.symm⟩ (by simp)
  simpa using this

/-- C5: for every non-empty list of chapters whose titles contain no line terminator and
do not begin with a timing line (what the pattern reads as
`<timestamp> --> <timestamp>`), and whose start and end are written `hh:mm:ss.mmm`,
`titlesToTimestamps` applied to the lines `title` / `<start> --> <end>` joined by
`"\n"` returns the records `{text: title, start: seconds(start), end: seconds(end)}`
in the same order; text behind the last timing line that contains no further block
(no line feed followed by a timing line) does not change the result. -/
theorem titlesToTimestamps_layout (cs : List ChapterSpec) (tail : JSString) (hne : cs ≠ [])
    (htitle : ∀ c ∈ cs, NoLineTerminator c.title ∧ timingLineAt c.title = false)
    (hstamp : ∀ c ∈ cs, c.start.WellFormed ∧ c.stop.WellFormed)
    (htail : ¬ HasTitleBlock tail) :
    titlesToTimestamps (joinLines (cs.map ChapterSpec.titleBlock) ++ tail)
      = .ok (cs.map ChapterSpec.record) := by
  cases cs with
  | nil => exact absurd rfl hne
  | cons c cs =>
    obtain ⟨hs, he⟩ := hstamp c (by simp)
    exact titles_of_chapters c cs tail (htitle c (by simp)).1 hs he
      (fun c' hc' => htitle c' (by simp [hc'])) (fun c' hc' => hstamp c' (by simp [hc']))
      ((not_hasTitleBlock_iff tail).mp htail)

set_option maxRecDepth 100000 in
/-- C5 on the transcript of two chapters, without and with caption text behind the
last timing line. -/
theorem titlesToTimestamps_layout_witness :
    titlesToTimestamps
        (js "Chapter 1\n00:00:00.000 --> 00:00:05.000\nChapter 2\n00:00:05.000 --> 00:00:10.000")
      = .ok [⟨some (js "Chapter 1"), some 0, some 5⟩, ⟨some (js "Chapter 2"), some 5, some 10⟩] ∧
    titlesToTimestamps
        (js ("Chapter 1\n00:00:00.000 --> 00:00:05.000\nChapter 2\n00:00:05.000 --> 00:00:10.000"
          ++ "\nArbitrary Chapter Text\nand more"))
      = .ok [⟨some (js "Chapter 1"), some 0, some 5⟩, ⟨some (js "Chapter 2"), some 5, some 10⟩] :=
  ⟨titlesToTimestamps_layout
      [⟨js "Chapter 1", ⟨48, 48, 48, 48, 48, 48, 48, 48, 48⟩, ⟨48, 48, 48, 48, 48, 53, 48, 48, 48⟩⟩,
       ⟨js "Chapter 2", ⟨48, 48, 48, 48, 48, 53, 48, 48, 48⟩, ⟨48, 48, 48, 48, 49, 48, 48, 48, 48⟩⟩]
      [] (by decide) (by decide) (by decide) (not_hasTitleBlock_of_check _ (by decide)),
   titlesToTimestamps_layout
      [⟨js "Chapter 1", ⟨48, 48, 48, 48, 48, 48, 48, 48, 48⟩, ⟨48, 48, 48, 48, 48, 53, 48, 48, 48⟩⟩,
       ⟨js "Chapter 2", ⟨48, 48, 48, 48, 48, 53, 48, 48, 48⟩, ⟨48, 48, 48, 48, 49, 48, 48, 48, 48⟩⟩]
      (js "\nArbitrary Chapter Text\nand more")
      (by decide) (by decide) (by decide) (not_hasTitleBlock_of_check _ (by decide))⟩

/-- C6 as stated fails: the chapters of `timingTitleChapters` satisfy its conditions,
and `chaptersToTimestamps` returns their records, but `titlesToTimestamps` on the
title-based rendering of the same chapters returns three records. -/
theorem chaptersToTimestamps_layout_counterexample :
    timingTitleChapters ≠ [] ∧
    (∀ c ∈ timingTitleChapters, NoLineTerminator c.title) ∧
    (∀ c ∈ timingTitleChapters, c.start.WellFormed ∧ c.stop.WellFormed) ∧
    chaptersToTimestamps (joinLines (timingTitleChapters.map ChapterSpec.chapterBlock))
      = .ok (timingTitleChapters.map ChapterSpec.record) ∧
    titlesToTimestamps (joinLines (timingTitleChapters.map ChapterSpec.titleBlock))
      = .ok [⟨some (js "A"), some 0, some 1⟩, ⟨some [], some 0, some 1⟩,
          ⟨some [], some 1, some 2⟩] ∧
    titlesToTimestamps (joinLines (timingTitleChapters.map ChapterSpec.titleBlock))
      ≠ chaptersToTimestamps (joinLines (timingTitleChapters.map ChapterSpec.chapterBlock)) := by
  decide

/-- C6, amended: for every non-empty list of chapters whose titles contain no line
terminator and whose start and end are written `hh:mm:ss.mmm`, `chaptersToTimestamps`
applied to the lines `<start> --> <end>` / `title` joined by `"\n"` returns the records
`{text: title, start: seconds(start), end: seconds(end)}` in the same order; when no
title behind the first begins with a timing line, `titlesToTimestamps` returns the same
records for the title-based rendering of the same chapters. -/
theorem chaptersToTimestamps_layout (cs : List ChapterSpec) (hne : cs ≠ [])
    (htitle : ∀ c ∈ cs, NoLineTerminator c.title)
    (hstamp : ∀ c ∈ cs, c.start.WellFormed ∧ c.stop.WellFormed) :
    chaptersToTimestamps (joinLines (cs.map ChapterSpec.chapterBlock))
      = .ok (cs.map ChapterSpec.record) ∧
    ((∀ c ∈ cs.tail, timingLineAt c.title = false) →
      titlesToTimestamps (joinLines (cs.map ChapterSpec.titleBlock))
        = chaptersToTimestamps (joinLines (cs.map ChapterSpec.chapterBlock))) := by
  cases cs with
  | nil => exact absurd rfl hne
  | cons c cs =>
    have hch := chapters_of_chapters c cs htitle hstamp
    refine ⟨hch, fun htl => ?_⟩
    obtain ⟨hs, he⟩ := hstamp c (by simp)
    have := titles_of_chapters c cs [] (htitle c (by simp)) hs he
      (fun c' hc' => ⟨htitle c' (by simp [hc']), htl c' (by simpa using hc')⟩)
      (fun c' hc' => hstamp c' (by simp [hc'])) (fun a b h => by simp at h)
    rw [List.append_nil] at this
    rw [this, hch]

set_option maxRecDepth 100000 in
/-- C6, amended, on the chapter file of two chapters. -/
theorem chaptersToTimestamps_layout_witness :
    chaptersToTimestamps
        (js "00:00:00.000 --> 00:00:05.000\nChapter 1\n00:00:05.000 --> 00:00:10.000\nChapter 2")
      = .ok [⟨some (js "Chapter 1"), some 0, some 5⟩, ⟨some (js "Chapter 2"), some 5, some 10⟩] ∧
    titlesToTimestamps
        (js "Chapter 1\n00:00:00.000 --> 00:00:05.000\nChapter 2\n00:00:05.000 --> 00:00:10.000")
      = chaptersToTimestamps
        (js "00:00:00.000 --> 00:00:05.000\nChapter 1\n00:00:05.000 --> 00:00:10.000\nChapter 2") :=
  ⟨(chaptersToTimestamps_layout
      [⟨js "Chapter 1", ⟨48, 48, 48, 48, 48, 48, 48, 48, 48⟩, ⟨48, 48, 48, 48, 48, 53, 48, 48, 48⟩⟩,
       ⟨js "Chapter 2", ⟨48, 48, 48, 48, 48, 53, 48, 48, 48⟩, ⟨48, 48, 48, 48, 49, 48, 48, 48, 48⟩⟩]
      (by decide) (by decide) (by decide)).1,
   (chaptersToTimestamps_layout
      [⟨js "Chapter 1", ⟨48, 48, 48, 48, 48, 48, 48, 48, 48⟩, ⟨48, 48, 48, 48, 48, 53, 48, 48, 48⟩⟩,
       ⟨js "Chapter 2", ⟨48, 48, 48, 48, 48, 53, 48, 48, 48⟩, ⟨48, 48, 48, 48, 49, 48, 48, 48, 48⟩⟩]
      (by decide) (by decide) (by decide)).2 (by decide)⟩


/-! ## Transcripts without blocks, failures and order -/

theorem not_hasChapterBlock_iff (t : JSString) :
    ¬ HasChapterBlock t ↔ ∀ pre suf, t = pre ++ suf → chapterBlockAt suf = none := by
  constructor
  · intro h pre suf hs
    cases hb : chapterBlockAt suf with
    | none => rfl
    | some p =>
      exfalso
      apply h
      unfold chapterBlockAt at hb
      cases ht : timingLine suf with
      | none => simp [ht] at hb
      | some q =>
        obtain ⟨n₁, n₂⟩ := q
        simp only [ht] at hb
        cases hd : suf.drop (n₁ + 5 + n₂) with
        | nil => simp [hd] at hb
        | cons c r =>
          simp only [hd] at hb
          by_cases hc : c = 10
          · subst hc
            exact ⟨pre, suf, n₁, n₂, r, hs, ht, hd⟩
          · simp [hc] at hb
  · rintro h ⟨a, b, n₁, n₂, c, hs, ht, hd⟩
    have := h a b hs
    simp [chapterBlockAt, ht, hd] at this

/-- Having no chapter-file block, as a check of every position of the text. -/
theorem not_hasChapterBlock_of_check (t : JSString)
    (h : t.tails.all (fun s => (chapterBlockAt s).isNone) = true) : ¬ HasChapterBlock t := by
  rw [not_hasChapterBlock_iff]
  simp only [List.all_eq_true, List.mem_tails, Option.isNone_iff_eq_none] at h
  intro pre suf hs
  exact h suf ⟨pre, hs.symm⟩

/-- C7 (the code departs from it): for every transcript without a title-layout block
(no line feed followed by a timing line), the empty string included, the call
`transcript.match(regexp)` yields `null`, the test `!matches.length` of source line 49
raises a TypeError, and `titlesToTimestamps` fails with that TypeError instead of the
error "Transcript does not contain properly formatted chapters". -/
theorem titlesToTimestamps_no_block (t : JSString) (h : ¬ HasTitleBlock t) :
    titlesToTimestamps t = .error .typeError := by
  have hl : LeftmostBlocks titleBlockAt t [] :=
    LeftmostBlocks.nil t (titleBlockAt_none_of_tail t ((not_hasTitleBlock_iff t).mp h))
  exact extract_of_leftmost .titles t [] hl

/-- C7 at the empty string and at a text without a timing line: the failure is the
TypeError, not the error for missing chapters. -/
theorem titlesToTimestamps_no_block_witness :
    titlesToTimestamps (js "") = .error .typeError ∧
    titlesToTimestamps (js "") ≠ .error .noChapters ∧
    titlesToTimestamps (js "Chapter 1\nno timing line") = .error .typeError :=
  ⟨titlesToTimestamps_no_block _ (not_hasTitleBlock_of_check _ (by decide)),
   by decide,
   titlesToTimestamps_no_block _ (not_hasTitleBlock_of_check _ (by decide))⟩

/-- C8: for every transcript without a chapter-file block (no timing line followed by a
line feed), the empty string included, `chaptersToTimestamps` fails with the error
"Transcript does not contain properly formatted chapters". -/
theorem chaptersToTimestamps_no_block (t : JSString) (h : ¬ HasChapterBlock t) :
    chaptersToTimestamps t = .error .noChapters := by
  have hl : LeftmostBlocks chapterBlockAt t [] :=
    LeftmostBlocks.nil t ((not_hasChapterBlock_iff t).mp h)
  exact extract_of_leftmost .chapters t [] hl

/-- C8 at the empty string, at a text without a timing line, and at a timing line that
no line feed follows. -/
theorem chaptersToTimestamps_no_block_witness :
    chaptersToTimestamps (js "") = .error .noChapters ∧
    chaptersToTimestamps (js "Chapter 1\nno timing line") = .error .noChapters ∧
    chaptersToTimestamps (js "00:00:00.000 --> 00:00:05.000") = .error .noChapters :=
  ⟨chaptersToTimestamps_no_block _ (not_hasChapterBlock_of_check _ (by decide)),
   chaptersToTimestamps_no_block _ (not_hasChapterBlock_of_check _ (by decide)),
   chaptersToTimestamps_no_block _ (not_hasChapterBlock_of_check _ (by decide))⟩


/-- The conversion either returns a number or fails with the error for its own input;
it never reaches the TypeError, because groups 2 and 3 take part in every match. -/
theorem convert_ok_or_badlyFormatted (ts : JSString) :
    (∃ v, convertTimeStampToSeconds ts = .ok v) ∨
      convertTimeStampToSeconds ts = .error (.badlyFormatted ts) := by
  rw [convert_eq]
  cases hs : convertRegexp.search ts.reverse with
  | none => exact Or.inr rfl
  | some p =>
    left
    obtain ⟨n, st⟩ := p
    obtain ⟨pre, suf, -, -, hrun, -⟩ := (search_eq_some_iff _ _ n st).mp hs
    rw [run_convertRegexp] at hrun
    by_cases hr : revClockAt suf = true
    · simp only [hr, if_true] at hrun
      by_cases ho : atomsAt [.lit 58, .digit, .digit] (suf.drop 9) = true
      · simp only [ho, if_true, Option.some.injEq] at hrun
        subst hrun
        exact ⟨_, rfl⟩
      · simp only [ho, Bool.false_eq_true, if_false, Option.some.injEq] at hrun
        subst hrun
        exact ⟨_, rfl⟩
    · simp [hr] at hrun

theorem convert_of_rejected (ts : JSString) (h : rejected ts = true) :
    convertTimeStampToSeconds ts = .error (.badlyFormatted ts) := by
  rcases convert_ok_or_badlyFormatted ts with ⟨v, hv⟩ | hbad
  · simp [rejected, hv] at h
  · exact hbad

theorem convert_of_not_rejected (ts : JSString) (h : rejected ts = false) :
    ∃ v, convertTimeStampToSeconds ts = .ok v := by
  rcases convert_ok_or_badlyFormatted ts with hv | hbad
  · exact hv
  · simp [rejected, hbad] at h

/-- The first rejected timestamp, in the order of conversion, is the failure of the
whole list of blocks. -/
theorem mapM_buildChapter_error (blocks : List Block) (ts : JSString)
    (h : (capturedStamps blocks).find? rejected = some ts) :
    blocks.mapM buildChapter = .error (.badlyFormatted ts) := by
  induction blocks with
  | nil => simp [capturedStamps] at h
  | cons b bs ih =>
    have hcs : capturedStamps (b :: bs) = b.start :: b.stop :: capturedStamps bs := by
      simp [capturedStamps]
    rw [hcs] at h
    rw [List.mapM_cons]
    by_cases h1 : rejected b.start = true
    · rw [List.find?_cons_of_pos _ h1] at h
      have hts : b.start = ts := by simpa using h
      subst hts
      simp only [buildChapter, convert_of_rejected _ h1]
      rfl
    · rw [List.find?_cons_of_neg _ h1] at h
      obtain ⟨v1, hv1⟩ := convert_of_not_rejected b.start (by simpa using h1)
      by_cases h2 : rejected b.stop = true
      · rw [List.find?_cons_of_pos _ h2] at h
        have hts : b.stop = ts := by simpa using h
        subst hts
        simp only [buildChapter, hv1, convert_of_rejected _ h2]
        rfl
      · rw [List.find?_cons_of_neg _ h2] at h
        obtain ⟨v2, hv2⟩ := convert_of_not_rejected b.stop (by simpa using h2)
        simp only [buildChapter, hv1, hv2, ih h]
        rfl

/-- A successful run over the blocks builds one chapter object from each block, in
order. -/
theorem mapM_buildChapter_ok (blocks : List Block) (recs : List Chapter)
    (h : blocks.mapM buildChapter = .ok recs) : List.Forall₂ BuiltFrom recs blocks := by
  induction blocks generalizing recs with
  | nil =>
    have : recs = [] := by
      simp only [List.mapM_nil] at h
      cases h
      rfl
    subst this
    exact List.Forall₂.nil
  | cons b bs ih =>
    rw [List.mapM_cons] at h
    cases hb : buildChapter b with
    | error e => rw [hb] at h; cases h
    | ok c =>
      cases hbs : bs.mapM buildChapter with
      | error e => rw [hb, hbs] at h; cases h
      | ok cs =>
        rw [hb, hbs] at h
        have hrecs : recs = c :: cs := by cases h; rfl
        subst hrecs
        refine List.Forall₂.cons ?_ (ih cs hbs)
        unfold buildChapter at hb
        cases h1 : convertTimeStampToSeconds b.start with
        | error e => rw [h1] at hb; cases hb
        | ok v1 =>
          cases h2 : convertTimeStampToSeconds b.stop with
          | error e => rw [h1, h2] at hb; cases hb
          | ok v2 =>
            rw [h1, h2] at hb
            have hc : c = ⟨some b.text, v1, v2⟩ := by cases hb; rfl
            subst hc
            exact ⟨rfl, h1, h2⟩

theorem leftmost_at_front (blockAt : JSString → Option (Block × JSString))
    (suf rest : JSString) (b : Block) (bs : List Block)
    (hblock : blockAt suf = some (b, rest)) (h : LeftmostBlocks blockAt rest bs) :
    LeftmostBlocks blockAt suf (b :: bs) := by
  have := LeftmostBlocks.cons [] suf rest b bs
    (fun pre' suf' _ hlt => absurd hlt (Nat.not_lt_zero _)) hblock h
  simpa using this

theorem leftmost_after_one (blockAt : JSString → Option (Block × JSString))
    (c : CodeUnit) (suf rest : JSString) (b : Block) (bs : List Block)
    (hnone : blockAt (c :: suf) = none)
    (hblock : blockAt suf = some (b, rest)) (h : LeftmostBlocks blockAt rest bs) :
    LeftmostBlocks blockAt (c :: suf) (b :: bs) := by
  have := LeftmostBlocks.cons [c] suf rest b bs ?_ hblock h
  · simpa using this
  · intro pre' suf' hs hlt
    cases pre' with
    | cons x xs => simp at hlt
    | nil =>
      have : suf' = c :: suf := by simpa using hs.symm
      rw [this]
      exact hnone

theorem leftmost_nil_of_check (blockAt : JSString → Option (Block × JSString)) (s : JSString)
    (h : s.tails.all (fun x => (blockAt x).isNone) = true) : LeftmostBlocks blockAt s [] := by
  simp only [List.all_eq_true, List.mem_tails, Option.isNone_iff_eq_none] at h
  exact LeftmostBlocks.nil s (fun pre suf hs => h suf ⟨pre, hs.symm⟩)

/-- C9: for both extractors, if any start or end timestamp captured from the blocks of
the transcript is rejected by `convertTimeStampToSeconds`, the whole call fails with the
error of the first such timestamp (in the order of conversion: block by block, start
before end) and returns no records, however many blocks are well formed. -/
theorem extract_fail_fast (l : Layout) (t : JSString) (blocks : List Block)
    (hblocks : LeftmostBlocks l.blockAt t blocks)
    (hany : ∃ x ∈ capturedStamps blocks, rejected x = true) :
    ∃ ts, (capturedStamps blocks).find? rejected = some ts ∧
      l.extract t = .error (.badlyFormatted ts) := by
  obtain ⟨x, hx, hrx⟩ := hany
  cases hfind : (capturedStamps blocks).find? rejected with
  | none => exact absurd hrx (by simpa using List.find?_eq_none.mp hfind x hx)
  | some ts =>
    refine ⟨ts, rfl, ?_⟩
    rw [extract_of_leftmost l t blocks hblocks]
    cases blocks with
    | nil => simp [capturedStamps] at hfind
    | cons b bs => exact mapM_buildChapter_error (b :: bs) ts hfind

/-- C10: for every transcript on which the extractor of a layout succeeds, the result
has one record per block of the transcript, the k-th record is built from the k-th of
the leftmost, non-overlapping blocks counted from the start of the transcript, and the
result is not empty. -/
theorem extract_order (l : Layout) (t : JSString) (recs : List Chapter)
    (h : l.extract t = .ok recs) :
    ∃ blocks, LeftmostBlocks l.blockAt t blocks ∧ recs.length = blocks.length ∧
      List.Forall₂ BuiltFrom recs blocks ∧ recs ≠ [] := by
  obtain ⟨blocks, hblocks⟩ := leftmostBlocks_exists l t
  rw [extract_of_leftmost l t blocks hblocks] at h
  cases blocks with
  | nil => cases l <;> cases h
  | cons b bs =>
    have hf := mapM_buildChapter_ok (b :: bs) recs h
    refine ⟨b :: bs, hblocks, hf.length_eq, hf, ?_⟩
    intro hnil
    subst hnil
    cases hf

set_option maxRecDepth 100000 in
/-- C9 on a title-layout transcript and on a chapter file of three blocks each, the
second of which has a start written `00:00:01,000`: the first and the third block are
well formed, and the call fails with the error for `00:00:01,000`. -/
theorem extract_fail_fast_witness :
    (∃ ts, (capturedStamps
        [⟨js "A", js "00:00:00.000", js "00:00:01.000"⟩,
         ⟨js "B", js "00:00:01,000", js "00:00:02.000"⟩,
         ⟨js "C", js "00:00:02.000", js "00:00:03.000"⟩]).find? rejected = some ts ∧
      Layout.titles.extract
        (js ("A\n00:00:00.000 --> 00:00:01.000\nB\n00:00:01,000 --> 00:00:02.000"
          ++ "\nC\n00:00:02.000 --> 00:00:03.000"))
        = .error (.badlyFormatted ts)) ∧
    (∃ ts, (capturedStamps
        [⟨js "A", js "00:00:00.000", js "00:00:01.000"⟩,
         ⟨js "B", js "00:00:01,000", js "00:00:02.000"⟩,
         ⟨js "C", js "00:00:02.000", js "00:00:03.000"⟩]).find? rejected = some ts ∧
      Layout.chapters.extract
        (js ("00:00:00.000 --> 00:00:01.000\nA\n00:00:01,000 --> 00:00:02.000\nB"
          ++ "\n00:00:02.000 --> 00:00:03.000\nC"))
        = .error (.badlyFormatted ts)) ∧
    titlesToTimestamps
        (js ("A\n00:00:00.000 --> 00:00:01.000\nB\n00:00:01,000 --> 00:00:02.000"
          ++ "\nC\n00:00:02.000 --> 00:00:03.000"))
      = .error (.badlyFormatted (js "00:00:01,000")) ∧
    chaptersToTimestamps
        (js ("00:00:00.000 --> 00:00:01.000\nA\n00:00:01,000 --> 00:00:02.000\nB"
          ++ "\n00:00:02.000 --> 00:00:03.000\nC"))
      = .error (.badlyFormatted (js "00:00:01,000")) :=
  ⟨extract_fail_fast .titles
      (js ("A\n00:00:00.000 --> 00:00:01.000\nB\n00:00:01,000 --> 00:00:02.000"
        ++ "\nC\n00:00:02.000 --> 00:00:03.000"))
      [⟨js "A", js "00:00:00.000", js "00:00:01.000"⟩,
       ⟨js "B", js "00:00:01,000", js "00:00:02.000"⟩,
       ⟨js "C", js "00:00:02.000", js "00:00:03.000"⟩]
      (leftmost_at_front titleBlockAt _
        (js "\nB\n00:00:01,000 --> 00:00:02.000\nC\n00:00:02.000 --> 00:00:03.000") _ _
        (by decide)
        (leftmost_after_one titleBlockAt 10
          (js "B\n00:00:01,000 --> 00:00:02.000\nC\n00:00:02.000 --> 00:00:03.000")
          (js "\nC\n00:00:02.000 --> 00:00:03.000") _ _
          (by decide) (by decide)
          (leftmost_after_one titleBlockAt 10
            (js "C\n00:00:02.000 --> 00:00:03.000") [] _ _
            (by decide) (by decide)
            (leftmost_nil_of_check _ _ (by decide)))))
      ⟨js "00:00:01,000", by decide, by decide⟩,
   extract_fail_fast .chapters
      (js ("00:00:00.000 --> 00:00:01.000\nA\n00:00:01,000 --> 00:00:02.000\nB"
        ++ "\n00:00:02.000 --> 00:00:03.000\nC"))
      [⟨js "A", js "00:00:00.000", js "00:00:01.000"⟩,
       ⟨js "B", js "00:00:01,000", js "00:00:02.000"⟩,
       ⟨js "C", js "00:00:02.000", js "00:00:03.000"⟩]
      (leftmost_at_front chapterBlockAt _
        (js "\n00:00:01,000 --> 00:00:02.000\nB\n00:00:02.000 --> 00:00:03.000\nC") _ _
        (by decide)
        (leftmost_after_one chapterBlockAt 10
          (js "00:00:01,000 --> 00:00:02.000\nB\n00:00:02.000 --> 00:00:03.000\nC")
          (js "\n00:00:02.000 --> 00:00:03.000\nC") _ _
          (by decide) (by decide)
          (leftmost_after_one chapterBlockAt 10
            (js "00:00:02.000 --> 00:00:03.000\nC") [] _ _
            (by decide) (by decide)
            (leftmost_nil_of_check _ _ (by decide)))))
      ⟨js "00:00:01,000", by decide, by decide⟩,
   by decide, by decide⟩

set_option maxRecDepth 100000 in
/-- C10 on the title-layout transcript and on the chapter file of two chapters. -/
theorem extract_order_witness :
    (∃ blocks, LeftmostBlocks titleBlockAt
        (js "Chapter 1\n00:00:00.000 --> 00:00:05.000\nChapter 2\n00:00:05.000 --> 00:00:10.000")
        blocks ∧
      [(⟨some (js "Chapter 1"), some 0, some 5⟩ : Chapter),
        ⟨some (js "Chapter 2"), some 5, some 10⟩].length = blocks.length ∧
      List.Forall₂ BuiltFrom
        [⟨some (js "Chapter 1"), some 0, some 5⟩, ⟨some (js "Chapter 2"), some 5, some 10⟩]
        blocks ∧
      [(⟨some (js "Chapter 1"), some 0, some 5⟩ : Chapter),
        ⟨some (js "Chapter 2"), some 5, some 10⟩] ≠ []) ∧
    (∃ blocks, LeftmostBlocks chapterBlockAt
        (js "00:00:00.000 --> 00:00:05.000\nChapter 1\n00:00:05.000 --> 00:00:10.000\nChapter 2")
        blocks ∧
      [(⟨some (js "Chapter 1"), some 0, some 5⟩ : Chapter),
        ⟨some (js "Chapter 2"), some 5, some 10⟩].length = blocks.length ∧
      List.Forall₂ BuiltFrom
        [⟨some (js "Chapter 1"), some 0, some 5⟩, ⟨some (js "Chapter 2"), some 5, some 10⟩]
        blocks ∧
      [(⟨some (js "Chapter 1"), some 0, some 5⟩ : Chapter),
        ⟨some (js "Chapter 2"), some 5, some 10⟩] ≠ []) :=
  ⟨extract_order .titles _ _ (by decide), extract_order .chapters _ _ (by decide)⟩


/-- The iteration bound of `Regex.matchGlobal` is enough for the patterns of both
extractors: with any larger bound the loop returns the same list. -/
theorem matchAllLoop_fuel (l : Layout) (t : JSString) (fuel : Nat) (h : t.length < fuel) :
    matchAllLoop l.regexp fuel t = matchAllLoop l.regexp (t.length + 1) t := by
  obtain ⟨caps, hrun⟩ := layout_run l
  obtain ⟨blocks, hblocks⟩ := leftmostBlocks_exists l t
  have hsplit : ∀ s b rest, l.blockAt s = some (b, rest) →
      s = l.render b ++ rest ∧ 0 < (l.render b).length :=
    fun s b rest hb => ⟨(layout_split l s b rest hb).1, (layout_split l s b rest hb).2.1⟩
  rw [matchAllLoop_of_leftmost l.regexp l.blockAt l.render caps hrun hsplit t blocks hblocks fuel h,
    matchAllLoop_of_leftmost l.regexp l.blockAt l.render caps hrun hsplit t blocks hblocks
      (t.length + 1) (Nat.lt_succ_self _)]


/-! ## Timing lines without hours -/

theorem isDigit_ne_lf (c : Nat) (h : isDigit c = true) : c ≠ 10 := by
  rw [isDigit_iff] at h; omega

theorem isDigit_ne_dot (c : Nat) (h : isDigit c = true) : (c == 46) = false := by
  rw [isDigit_iff] at h
  simp only [beq_eq_false_iff_ne, ne_eq]
  omega

/-- A text with a single line feed splits at a line feed in one way only. -/
theorem split_at_lf_unique (t r a b : JSString) (ht : 10 ∉ t) (hr : 10 ∉ r)
    (h : t ++ 10 :: r = a ++ 10 :: b) : a = t ∧ b = r := by
  induction t generalizing a with
  | nil =>
    cases a with
    | nil => simpa using h.symm
    | cons x a' =>
      simp only [List.nil_append, List.cons_append, List.cons.injEq] at h
      exact absurd (by rw [h.2]; simp) hr
  | cons c t' ih =>
    cases a with
    | nil =>
      simp only [List.cons_append, List.nil_append, List.cons.injEq] at h
      exact absurd (by rw [h.1]; simp) ht
    | cons x a' =>
      simp only [List.cons_append, List.cons.injEq] at h
      obtain ⟨ha, hb⟩ := ih a' (fun hm => ht (by simp [hm])) h.2
      exact ⟨by rw [h.1, ha], hb⟩

theorem noLineTerminator_not_mem_lf (s : JSString) (h : NoLineTerminator s) : 10 ∉ s := by
  intro hm
  have := h 10 hm
  simp [isLineTerminator] at this

theorem isStampText_length (u : JSString) (h : IsStampText u) :
    u.length = 10 ∨ u.length = 12 := by
  unfold IsStampText stampLen at h
  split at h
  · right; simpa using h.symm
  · split at h
    · left; simpa using h.symm
    · simp at h

/-- A timing line written without hours, `mm:ss.mmm --> mm:ss.mmm`, is not a timing line
for the extractor patterns: they want a `:` in front of the minutes. -/
theorem timingLine_short (a b : ShortStamp) (ha : a.WellFormed) (rest : JSString) :
    timingLine (a.render ++ arrow ++ b.render ++ rest) = none := by
  obtain ⟨m₁, m₂, s₁, s₂, f₁, f₂, f₃⟩ := a
  obtain ⟨hm₁, hm₂, hs₁, hs₂, hf₁, hf₂, hf₃⟩ := ha
  simp only at hm₁ hm₂ hs₁ hs₂ hf₁ hf₂ hf₃
  simp [timingLine, stampLen, longStampAt, shortStampAt, ShortStamp.render, atomsAt,
    Atom.accepts, isDigit_ne_colon m₁ hm₁, hm₁, hm₂, hs₁, hs₂]

theorem shortTiming_no_lf (a b : ShortStamp) (ha : a.WellFormed) (hb : b.WellFormed) :
    10 ∉ a.render ++ arrow ++ b.render := by
  obtain ⟨hm₁, hm₂, hs₁, hs₂, hf₁, hf₂, hf₃⟩ := ha
  obtain ⟨hn₁, hn₂, ht₁, ht₂, hg₁, hg₂, hg₃⟩ := hb
  simp only [ShortStamp.render, arrow, List.mem_append, List.mem_cons, List.mem_singleton,
    List.not_mem_nil, or_false, not_or]
  have := isDigit_ne_lf _ hm₁; have := isDigit_ne_lf _ hm₂; have := isDigit_ne_lf _ hs₁
  have := isDigit_ne_lf _ hs₂; have := isDigit_ne_lf _ hf₁; have := isDigit_ne_lf _ hf₂
  have := isDigit_ne_lf _ hf₃; have := isDigit_ne_lf _ hn₁; have := isDigit_ne_lf _ hn₂
  have := isDigit_ne_lf _ ht₁; have := isDigit_ne_lf _ ht₂; have := isDigit_ne_lf _ hg₁
  have := isDigit_ne_lf _ hg₂; have := isDigit_ne_lf _ hg₃
  refine ⟨⟨⟨?_, ?_, ?_, ?_, ?_, ?_, ?_, ?_, ?_⟩, ?_⟩, ?_, ?_, ?_, ?_, ?_, ?_, ?_, ?_, ?_⟩ <;>
    first | (intro h; omega) | decide | (exact fun h => absurd h.symm ‹_›)

theorem extract_of_no_titleBlock (t : JSString)
    (h : ∀ a b, t = a ++ 10 :: b → timingLineAt b = false) :
    titlesToTimestamps t = .error .typeError :=
  extract_of_leftmost .titles t [] (LeftmostBlocks.nil t (titleBlockAt_none_of_tail t h))

theorem extract_of_no_chapterBlock (t : JSString)
    (h : ∀ pre suf, t = pre ++ suf → chapterBlockAt suf = none) :
    chaptersToTimestamps t = .error .noChapters :=
  extract_of_leftmost .chapters t [] (LeftmostBlocks.nil t h)

/-- C11 (the code departs from it): for every title `T` without line terminators and all
digit groups, the timing line `m1:s1.xxx --> m2:s2.yyy`, written without hours, is not
matched by the extractor patterns, which want a `:` in front of the minutes:
`titlesToTimestamps("T\nm1:s1.xxx --> m2:s2.yyy")` finds no block and fails with the
TypeError of source line 49, and `chaptersToTimestamps("m1:s1.xxx --> m2:s2.yyy\nT")`
fails with the error "Transcript does not contain properly formatted chapters"; neither
returns a record. -/
theorem extract_hoursless (title : JSString) (a b : ShortStamp)
    (ht : NoLineTerminator title) (ha : a.WellFormed) (hb : b.WellFormed) :
    titlesToTimestamps (title ++ 10 :: (a.render ++ arrow ++ b.render)) = .error .typeError ∧
    chaptersToTimestamps (a.render ++ arrow ++ b.render ++ 10 :: title)
      = .error .noChapters := by
  have hT := noLineTerminator_not_mem_lf title ht
  have hR := shortTiming_no_lf a b ha hb
  constructor
  · apply extract_of_no_titleBlock
    intro x y hxy
    obtain ⟨-, hy⟩ := split_at_lf_unique title _ x y hT hR hxy
    rw [hy]
    have := timingLine_short a b ha []
    rw [List.append_nil] at this
    unfold timingLineAt
    rw [this]
    rfl
  · apply extract_of_no_chapterBlock
    intro pre suf hs
    cases hblock : chapterBlockAt suf with
    | none => rfl
    | some p =>
      exfalso
      obtain ⟨blk, rest⟩ := p
      obtain ⟨hsuf, -, h1, h2, -⟩ := chapterBlockAt_split suf blk rest hblock
      have hsplit : a.render ++ arrow ++ b.render ++ 10 :: title
          = (pre ++ (blk.start ++ arrow ++ blk.stop)) ++ 10 :: (blk.text ++ rest) := by
        rw [hs, hsuf]
        simp [Block.chapterMatch]
      obtain ⟨hpre, -⟩ := split_at_lf_unique _ _ _ _ hR hT hsplit
      have hlen := congrArg List.length hpre
      simp only [List.length_append, ShortStamp.render, arrow, List.length_cons,
        List.length_nil] at hlen
      rcases isStampText_length _ h1 with h1 | h1 <;>
        rcases isStampText_length _ h2 with h2 | h2 <;> omega

/-- C11 at `"T\n00:05.000 --> 00:06.000"` and `"00:05.000 --> 00:06.000\nT"`: neither
extractor returns the record `{text: "T", start: 5, end: 6}`. -/
theorem extract_hoursless_witness :
    titlesToTimestamps (js "T\n00:05.000 --> 00:06.000") = .error .typeError ∧
    chaptersToTimestamps (js "00:05.000 --> 00:06.000\nT") = .error .noChapters :=
  extract_hoursless (js "T") ⟨48, 48, 48, 53, 48, 48, 48⟩ ⟨48, 48, 48, 54, 48, 48, 48⟩
    (by decide) (by decide) (by decide)


/-! ## The format option, and the shape of the records -/

/-- C12: for a transcript string, the chapter list computed in `ableplayerAddDots` is
the result of `titlesToTimestamps(transcript)` when the format option is `"titles"` and
the result of `chaptersToTimestamps(transcript)` when it is `"blocks"` (the `default`
branch of the `switch`); an error of the chosen extractor is the error of the
dispatch. -/
theorem ableplayerAddDotsChapters_dispatch (transcript : JSString) :
    (∀ chapters, titlesToTimestamps transcript = .ok chapters →
      ableplayerAddDotsChapters (some (js "titles")) transcript = .ok (.extracted chapters)) ∧
    (∀ e, titlesToTimestamps transcript = .error e →
      ableplayerAddDotsChapters (some (js "titles")) transcript = .error e) ∧
    (∀ chapters, chaptersToTimestamps transcript = .ok chapters →
      ableplayerAddDotsChapters (some (js "blocks")) transcript = .ok (.extracted chapters)) ∧
    (∀ e, chaptersToTimestamps transcript = .error e →
      ableplayerAddDotsChapters (some (js "blocks")) transcript = .error e) := by
  have h1 : (some (js "titles") : Option JSString) ≠ some (js "array") := by decide
  have h2 : (some (js "blocks") : Option JSString) ≠ some (js "array") := by decide
  have h3 : (some (js "blocks") : Option JSString) ≠ some (js "titles") := by decide
  refine ⟨?_, ?_, ?_, ?_⟩
  · intro chapters h
    simp only [ableplayerAddDotsChapters, if_neg h1, if_true, h]
  · intro e h
    simp only [ableplayerAddDotsChapters, if_neg h1, if_true, h]
  · intro chapters h
    simp only [ableplayerAddDotsChapters, if_neg h2, if_neg h3, h]
  · intro e h
    simp only [ableplayerAddDotsChapters, if_neg h2, if_neg h3, h]

/-- C13: the extractors return start and end exactly as converted and do not compare
them: for every chapter with a title without line terminators and with start and end
written `hh:mm:ss.mmm`, in whatever order, both extractors return the single record
`{text, start: seconds(start), end: seconds(end)}` on the chapter's two lines; and on
`"T\n00:00:05.000 --> 00:00:01.000"` resp. `"00:00:05.000 --> 00:00:01.000\nT"` the
returned record has an end strictly less than its start. -/
theorem extract_no_order_check (c : ChapterSpec) (ht : NoLineTerminator c.title)
    (hs : c.start.WellFormed) (he : c.stop.WellFormed) :
    titlesToTimestamps c.titleBlock
      = .ok [⟨some c.title, some c.start.seconds, some c.stop.seconds⟩] ∧
    chaptersToTimestamps c.chapterBlock
      = .ok [⟨some c.title, some c.start.seconds, some c.stop.seconds⟩] ∧
    (∃ r s e, titlesToTimestamps (js "T\n00:00:05.000 --> 00:00:01.000") = .ok [r] ∧
      r.start = some s ∧ r.end_ = some e ∧ e < s) ∧
    (∃ r s e, chaptersToTimestamps (js "00:00:05.000 --> 00:00:01.000\nT") = .ok [r] ∧
      r.start = some s ∧ r.end_ = some e ∧ e < s) := by
  refine ⟨?_, ?_, ?_, ?_⟩
  · have := titles_of_chapters c [] [] ht hs he (by simp) (by simp) (fun a b h => by simp at h)
    simpa [joinLines, ChapterSpec.record] using this
  · have := chapters_of_chapters c [] (by simpa using ht) (by simpa using ⟨hs, he⟩)
    simpa [joinLines, ChapterSpec.record] using this
  · exact ⟨⟨some (js "T"), some 5, some 1⟩, 5, 1, by decide, rfl, rfl, by decide⟩
  · exact ⟨⟨some (js "T"), some 5, some 1⟩, 5, 1, by decide, rfl, rfl, by decide⟩

/-- C13 at the chapter `T` from `00:00:05.000` to `00:00:01.000`. -/
theorem extract_no_order_check_witness :
    titlesToTimestamps (js "T\n00:00:05.000 --> 00:00:01.000")
      = .ok [⟨some (js "T"), some 5, some 1⟩] ∧
    chaptersToTimestamps (js "00:00:05.000 --> 00:00:01.000\nT")
      = .ok [⟨some (js "T"), some 5, some 1⟩] :=
  ⟨(extract_no_order_check
      ⟨js "T", ⟨48, 48, 48, 48, 48, 53, 48, 48, 48⟩, ⟨48, 48, 48, 48, 48, 49, 48, 48, 48⟩⟩
      (by decide) (by decide) (by decide)).1,
   (extract_no_order_check
      ⟨js "T", ⟨48, 48, 48, 48, 48, 53, 48, 48, 48⟩, ⟨48, 48, 48, 48, 48, 49, 48, 48, 48⟩⟩
      (by decide) (by decide) (by decide)).2.1⟩

/-- C14: every record returned by `titlesToTimestamps` or `chaptersToTimestamps` has
exactly the three properties `text`, `start` and `end`, and reading `percentage` from it
gives `undefined`. -/
theorem extract_record_properties (l : Layout) (t : JSString) (recs : List Chapter)
    (_h : l.extract t = .ok recs) :
    ∀ r ∈ recs, r.properties.map Prod.fst = [js "text", js "start", js "end"] ∧
      getProperty r.properties (js "percentage") = .undefined := by
  intro r _
  have h1 : (js "text" == js "percentage") = false := by decide
  have h2 : (js "start" == js "percentage") = false := by decide
  have h3 : (js "end" == js "percentage") = false := by decide
  refine ⟨rfl, ?_⟩
  simp only [getProperty, Chapter.properties, List.find?, h1, h2, h3]

/-- C14 on the example of the docstring of `titlesToTimestamps` (source lines 27-37):
the record returned has the properties `text`, `start` and `end`, but not the
`percentage: 0` of the docstring. -/
theorem extract_record_properties_witness :
    titlesToTimestamps (js "Chapter 1\n00:00:00.000 --> 00:00:01.000\nArbitrary Chapter Text")
      = .ok [⟨some (js "Chapter 1"), some 0, some 1⟩] ∧
    ∀ r ∈ [(⟨some (js "Chapter 1"), some 0, some 1⟩ : Chapter)],
      r.properties.map Prod.fst = [js "text", js "start", js "end"] ∧
      getProperty r.properties (js "percentage") = .undefined :=
  ⟨by decide,
   extract_record_properties .titles
    (js "Chapter 1\n00:00:00.000 --> 00:00:01.000\nArbitrary Chapter Text") _ (by decide)⟩


/-! ## `convertTimeStampToSeconds` on arbitrary input -/

/-- Where the input has `dd:dd.ddd`, the reversed input has `ddd.dd:dd`. -/
theorem revClockAt_of_clockAt (pre suf : JSString) (h : clockAt suf = true) :
    ∃ pre' suf', (pre ++ suf).reverse = pre' ++ suf' ∧ revClockAt suf' = true := by
  rcases suf with _ | ⟨a, _ | ⟨b, _ | ⟨c, _ | ⟨d, _ | ⟨e, _ | ⟨f, _ | ⟨g, _ | ⟨i, _ | ⟨j, r⟩⟩⟩⟩⟩⟩⟩⟩⟩ <;>
    simp only [clockAt, atomsAt, Bool.and_false, Bool.false_eq_true] at h
  simp only [Bool.and_true, Bool.and_eq_true] at h
  obtain ⟨ha, hb, hc, hd, he, hf, hg, hi, hj⟩ := h
  refine ⟨r.reverse, [j, i, g, f, e, d, c, b, a] ++ pre.reverse, by simp, ?_⟩
  simp [revClockAt, atomsAt, ha, hb, hc, hd, he, hf, hg, hi, hj]

/-- The captures of a match of the pattern of source line 11: groups 2 and 3 are two
digits each, and so is group 4 when it takes part. -/
theorem run_convertRegexp_captures (s : JSString) (st : MState)
    (h : convertRegexp.run ⟨s, []⟩ some = some st) :
    ∃ s₂ s₁ m₂ m₁, isDigit s₂ = true ∧ isDigit s₁ = true ∧ isDigit m₂ = true ∧
      isDigit m₁ = true ∧ capture st.caps 2 = some [s₂, s₁] ∧
      capture st.caps 3 = some [m₂, m₁] ∧
      (capture st.caps 4 = none ∨
        ∃ h₂ h₁, isDigit h₂ = true ∧ isDigit h₁ = true ∧ capture st.caps 4 = some [h₂, h₁]) := by
  rw [run_convertRegexp] at h
  by_cases hr : revClockAt s = true
  · simp only [hr, if_true] at h
    rcases s with _ | ⟨a, _ | ⟨b, _ | ⟨c, _ | ⟨d, _ | ⟨e, _ | ⟨f, _ | ⟨g, _ | ⟨i, _ | ⟨j, r⟩⟩⟩⟩⟩⟩⟩⟩⟩ <;>
      simp only [revClockAt, atomsAt, Bool.and_false, Bool.false_eq_true] at hr
    simp only [Bool.and_true, Bool.and_eq_true] at hr
    obtain ⟨ha, hb, hc, hd, he, hf, hg, hi, hj⟩ := hr
    simp only [Atom.accepts] at he hf hi hj
    refine ⟨e, f, i, j, he, hf, hi, hj, ?_⟩
    by_cases ho : atomsAt [.lit 58, .digit, .digit] (List.drop 9 (a :: b :: c :: d :: e :: f :: g :: i :: j :: r)) = true
    · simp only [ho, if_true, Option.some.injEq] at h
      subst h
      refine ⟨by simp [capture], by simp [capture], Or.inr ?_⟩
      rcases r with _ | ⟨x, _ | ⟨y, _ | ⟨z, r'⟩⟩⟩ <;>
        simp only [List.drop_succ_cons, List.drop_zero, atomsAt, Bool.and_false,
          Bool.false_eq_true] at ho
      simp only [Bool.and_true, Bool.and_eq_true, Atom.accepts] at ho
      exact ⟨y, z, ho.2.1, ho.2.2, by simp [capture]⟩
    · simp only [ho, Bool.false_eq_true, if_false, Option.some.injEq] at h
      subst h
      exact ⟨by simp [capture], by simp [capture], Or.inl (by simp [capture])⟩
  · simp [hr] at h

/-- Whenever the pattern is found in the reversed input, the function returns a number
that is not `NaN`. -/
theorem convert_of_search_some (t : JSString) (n : Nat) (st : MState)
    (h : convertRegexp.search t.reverse = some (n, st)) :
    ∃ v, convertTimeStampToSeconds t = .ok (some v) := by
  obtain ⟨pre, suf, -, -, hrun, -⟩ := (search_eq_some_iff _ _ n st).mp h
  obtain ⟨s₂, s₁, m₂, m₁, hs₂, hs₁, hm₂, hm₁, hc2, hc3, hc4⟩ :=
    run_convertRegexp_captures suf st hrun
  rw [convert_eq, h]
  simp only [hc2, hc3]
  rcases hc4 with hc4 | ⟨h₂, h₁, hh₂, hh₁, hc4⟩
  · refine ⟨twoDigits s₁ s₂ + twoDigits m₁ m₂ * 60 + 0 * 60 * 60, ?_⟩
    simp [hc4, parseInt_two, hs₁, hs₂, hm₁, hm₂]
  · refine ⟨twoDigits s₁ s₂ + twoDigits m₁ m₂ * 60 + twoDigits h₁ h₂ * 60 * 60, ?_⟩
    simp [hc4, parseInt_two, hs₁, hs₂, hm₁, hm₂, hh₁, hh₂]

theorem search_convertRegexp_some (t : JSString) (h : ContainsClock t) :
    ∃ p, convertRegexp.search t.reverse = some p := by
  obtain ⟨pre, suf, hs, hc⟩ := h
  obtain ⟨pre', suf', hrev, hr⟩ := revClockAt_of_clockAt pre suf hc
  cases hsearch : convertRegexp.search t.reverse with
  | some p => exact ⟨p, rfl⟩
  | none =>
    exfalso
    have := (search_eq_none_iff _ _).mp hsearch pre' suf' (by rw [hs, hrev])
    rw [run_convertRegexp] at this
    by_cases ho : atomsAt [.lit 58, .digit, .digit] (suf'.drop 9) = true <;>
      simp [hr, ho] at this

/-- C15: `convertTimeStampToSeconds` succeeds, with a number that is not `NaN`, if and
only if its input contains, anywhere, a contiguous substring of the shape `dd:dd.ddd`;
it fails with the error "Badly formatted timestamp" exactly for the strings that
contain no such substring, the empty string among them. -/
theorem convertTimeStampToSeconds_iff (t : JSString) :
    ((∃ v, convertTimeStampToSeconds t = .ok (some v)) ↔ ContainsClock t) ∧
    (convertTimeStampToSeconds t = .error (.badlyFormatted t) ↔ ¬ ContainsClock t) ∧
    convertTimeStampToSeconds [] = .error (.badlyFormatted []) := by
  have hyes : ContainsClock t → ∃ v, convertTimeStampToSeconds t = .ok (some v) := by
    intro h
    obtain ⟨⟨n, st⟩, hp⟩ := search_convertRegexp_some t h
    exact convert_of_search_some t n st hp
  have hno : ¬ ContainsClock t → convertTimeStampToSeconds t = .error (.badlyFormatted t) := by
    intro h
    rw [convert_eq, search_convertRegexp_none t h]
  refine ⟨⟨?_, hyes⟩, ⟨?_, hno⟩, by decide⟩
  · rintro ⟨v, hv⟩
    by_contra hc
    rw [hno hc] at hv
    cases hv
  · intro he hc
    obtain ⟨v, hv⟩ := hyes hc
    rw [hv] at he
    cases he


/-- C16: for every string `X` and all digit groups,
`convertTimeStampToSeconds(X ++ "hh:mm:ss.mmm")` is `ss + 60*mm + 3600*hh`, whatever
`X` is; an hours field of more than two digits counts with its last two digits. -/
theorem convertTimeStampToSeconds_suffix (x : JSString)
    (h₁ h₂ m₁ m₂ s₁ s₂ f₁ f₂ f₃ : CodeUnit)
    (hh₁ : isDigit h₁ = true) (hh₂ : isDigit h₂ = true)
    (hm₁ : isDigit m₁ = true) (hm₂ : isDigit m₂ = true)
    (hs₁ : isDigit s₁ = true) (hs₂ : isDigit s₂ = true)
    (hf₁ : isDigit f₁ = true) (hf₂ : isDigit f₂ = true) (hf₃ : isDigit f₃ = true) :
    convertTimeStampToSeconds (x ++ [h₁, h₂, 58, m₁, m₂, 58, s₁, s₂, 46, f₁, f₂, f₃])
      = .ok (some (twoDigits s₁ s₂ + 60 * twoDigits m₁ m₂ + 3600 * twoDigits h₁ h₂)) := by
  have hrun := run_convertRegexp
    (f₃ :: f₂ :: f₁ :: 46 :: s₂ :: s₁ :: 58 :: m₂ :: m₁ :: 58 :: h₂ :: h₁ :: x.reverse)
  simp [revClockAt, atomsAt, Atom.accepts, hh₁, hh₂, hm₁, hm₂, hs₁, hs₂, hf₁, hf₂, hf₃] at hrun
  have hrev : (x ++ [h₁, h₂, 58, m₁, m₂, 58, s₁, s₂, 46, f₁, f₂, f₃]).reverse
      = f₃ :: f₂ :: f₁ :: 46 :: s₂ :: s₁ :: 58 :: m₂ :: m₁ :: 58 :: h₂ :: h₁ :: x.reverse := by
    simp
  rw [convert_eq, hrev, search_of_run _ _ _ hrun]
  simp [capture, parseInt_two, hh₁, hh₂, hm₁, hm₂, hs₁, hs₂]
  ring

/-- C16 at `"100:00:00.000"`, at `"123:45:07.000"` and behind a text. -/
theorem convertTimeStampToSeconds_suffix_witness :
    convertTimeStampToSeconds (js "100:00:00.000") = .ok (some 0) ∧
    convertTimeStampToSeconds (js "123:45:07.000") = .ok (some (23 * 3600 + 45 * 60 + 7)) ∧
    convertTimeStampToSeconds (js "starts at 00:01:00.000") = .ok (some 60) :=
  ⟨convertTimeStampToSeconds_suffix (js "1") 48 48 48 48 48 48 48 48 48
      rfl rfl rfl rfl rfl rfl rfl rfl rfl,
   convertTimeStampToSeconds_suffix (js "1") 50 51 52 53 48 55 48 48 48
      rfl rfl rfl rfl rfl rfl rfl rfl rfl,
   convertTimeStampToSeconds_suffix (js "starts at ") 48 48 48 49 48 48 48 48 48
      rfl rfl rfl rfl rfl rfl rfl rfl rfl⟩


/-! ## The timestamps that the extractors capture -/

theorem isDigit_colon : isDigit 58 = false := by decide

/-- A timestamp as the extractor patterns read it has the shape `[dd]:dd:ddXddd`. -/
theorem isStampText_shape (ts : JSString) (h : IsStampText ts) :
    ∃ c : CapturedStamp, c.WellFormed ∧ ts = c.render := by
  unfold IsStampText stampLen at h
  by_cases hl : longStampAt ts = true
  · simp only [hl, if_true, Option.some.injEq] at h
    rcases ts with _ | ⟨a, _ | ⟨b, _ | ⟨c, _ | ⟨d, _ | ⟨e, _ | ⟨f, _ | ⟨g, _ | ⟨i, _ | ⟨j, _ | ⟨k, _ | ⟨m, _ | ⟨n, r⟩⟩⟩⟩⟩⟩⟩⟩⟩⟩⟩⟩ <;>
      simp only [List.length_cons, List.length_nil] at h <;> try omega
    have hr : r = [] := List.length_eq_zero.mp (by omega)
    subst hr
    simp only [longStampAt, atomsAt, Atom.accepts, Bool.and_true, Bool.and_eq_true,
      beq_iff_eq, Bool.not_eq_true'] at hl
    obtain ⟨ha, hb, hc, hd, he, hf, hg, hi, hj, hk, hm, hn⟩ := hl
    subst hc hf
    exact ⟨⟨some (a, b), d, e, g, i, j, k, m, n⟩, ⟨⟨ha, hb⟩, hd, he, hg, hi, hj, hk, hm, hn⟩, rfl⟩
  · simp only [hl, Bool.false_eq_true, if_false] at h
    by_cases hs : shortStampAt ts = true
    · simp only [hs, if_true, Option.some.injEq] at h
      rcases ts with _ | ⟨c, _ | ⟨d, _ | ⟨e, _ | ⟨f, _ | ⟨g, _ | ⟨i, _ | ⟨j, _ | ⟨k, _ | ⟨m, _ | ⟨n, r⟩⟩⟩⟩⟩⟩⟩⟩⟩⟩ <;>
        simp only [List.length_cons, List.length_nil] at h <;> try omega
      have hr : r = [] := List.length_eq_zero.mp (by omega)
      subst hr
      simp only [shortStampAt, atomsAt, Atom.accepts, Bool.and_true, Bool.and_eq_true,
        beq_iff_eq, Bool.not_eq_true'] at hs
      obtain ⟨hc, hd, he, hf, hg, hi, hj, hk, hm, hn⟩ := hs
      subst hc hf
      exact ⟨⟨none, d, e, g, i, j, k, m, n⟩, ⟨trivial, hd, he, hg, hi, hj, hk, hm, hn⟩, rfl⟩
    · simp [hs] at h

/-- A captured timestamp whose separator is `.` is converted to its seconds. -/
theorem convert_captured_dot (c : CapturedStamp) (h : c.WellFormed) (hsep : c.sep = 46) :
    convertTimeStampToSeconds c.render = .ok (some c.seconds) := by
  obtain ⟨hours, m₁, m₂, s₁, s₂, sep, f₁, f₂, f₃⟩ := c
  obtain ⟨hh, hm₁, hm₂, hs₁, hs₂, -, hf₁, hf₂, hf₃⟩ := h
  simp only at hh hm₁ hm₂ hs₁ hs₂ hf₁ hf₂ hf₃ hsep
  subst hsep
  cases hours with
  | some p =>
    obtain ⟨h₁, h₂⟩ := p
    simp only at hh
    exact convert_render ⟨h₁, h₂, m₁, m₂, s₁, s₂, f₁, f₂, f₃⟩
      ⟨hh.1, hh.2, hm₁, hm₂, hs₁, hs₂, hf₁, hf₂, hf₃⟩
  | none =>
    have hrun := run_convertRegexp [f₃, f₂, f₁, 46, s₂, s₁, 58, m₂, m₁, 58]
    simp [revClockAt, atomsAt, Atom.accepts, hm₁, hm₂, hs₁, hs₂, hf₁, hf₂, hf₃] at hrun
    have hrev : (CapturedStamp.render ⟨none, m₁, m₂, s₁, s₂, 46, f₁, f₂, f₃⟩).reverse
        = [f₃, f₂, f₁, 46, s₂, s₁, 58, m₂, m₁, 58] := rfl
    rw [convert_eq, hrev, search_of_run _ _ _ hrun]
    simp [capture, parseInt_two, hm₁, hm₂, hs₁, hs₂, CapturedStamp.seconds]
    ring

/-- A captured timestamp whose separator is not `.` contains no `dd:dd.ddd`. -/
theorem not_containsClock_captured (c : CapturedStamp) (h : c.WellFormed)
    (hsep : c.sep ≠ 46) : ¬ ContainsClock c.render := by
  obtain ⟨hours, m₁, m₂, s₁, s₂, sep, f₁, f₂, f₃⟩ := c
  obtain ⟨hh, hm₁, hm₂, hs₁, hs₂, -, hf₁, hf₂, hf₃⟩ := h
  simp only at hh hm₁ hm₂ hs₁ hs₂ hf₁ hf₂ hf₃ hsep
  have hsep' : (sep == 46) = false := by simpa using hsep
  rw [containsClock_iff]
  cases hours with
  | some p =>
    obtain ⟨h₁, h₂⟩ := p
    simp only at hh
    simp [CapturedStamp.render, List.tails, clockAt, atomsAt, Atom.accepts, isDigit_colon,
      hsep', isDigit_ne_dot _ hs₁, isDigit_ne_dot _ hs₂, isDigit_ne_dot _ hm₁,
      isDigit_ne_dot _ hm₂, isDigit_ne_dot _ hf₁, isDigit_ne_dot _ hf₂, isDigit_ne_dot _ hf₃,
      isDigit_ne_dot _ hh.1, isDigit_ne_dot _ hh.2]
  | none =>
    simp [CapturedStamp.render, List.tails, clockAt, atomsAt, Atom.accepts, isDigit_colon,
      hsep', isDigit_ne_dot _ hs₁, isDigit_ne_dot _ hs₂, isDigit_ne_dot _ hm₁,
      isDigit_ne_dot _ hm₂, isDigit_ne_dot _ hf₁, isDigit_ne_dot _ hf₂, isDigit_ne_dot _ hf₃]

theorem convert_captured_other (c : CapturedStamp) (h : c.WellFormed) (hsep : c.sep ≠ 46) :
    convertTimeStampToSeconds c.render = .error (.badlyFormatted c.render) := by
  rw [convert_eq, search_convertRegexp_none _ (not_containsClock_captured c h hsep)]


/-- When no captured timestamp is rejected, every block yields its chapter object. -/
theorem mapM_buildChapter_of_none_rejected (blocks : List Block)
    (h : ∀ ts ∈ capturedStamps blocks, rejected ts = false) :
    ∃ recs, blocks.mapM buildChapter = .ok recs := by
  induction blocks with
  | nil => exact ⟨[], rfl⟩
  | cons b bs ih =>
    have hcs : capturedStamps (b :: bs) = b.start :: b.stop :: capturedStamps bs := by
      simp [capturedStamps]
    rw [hcs] at h
    obtain ⟨v1, hv1⟩ := convert_of_not_rejected b.start (h _ (by simp))
    obtain ⟨v2, hv2⟩ := convert_of_not_rejected b.stop (h _ (by simp))
    obtain ⟨recs, hrecs⟩ := ih (fun ts hts => h ts (by simp [hts]))
    refine ⟨⟨some b.text, v1, v2⟩ :: recs, ?_⟩
    rw [List.mapM_cons]
    simp only [buildChapter, hv1, hv2, hrecs]
    rfl

theorem capturedStamps_isStampText (l : Layout) (t : JSString) (blocks : List Block)
    (h : LeftmostBlocks l.blockAt t blocks) : ∀ ts ∈ capturedStamps blocks, IsStampText ts := by
  intro ts hts
  simp only [capturedStamps, List.mem_flatMap, List.mem_cons, List.mem_singleton,
    List.not_mem_nil, or_false] at hts
  obtain ⟨b, hb, hts⟩ := hts
  obtain ⟨-, h1, h2⟩ := leftmostBlocks_wf l t blocks h b hb
  rcases hts with rfl | rfl
  · exact h1
  · exact h2

/-- C17: the timestamps that the extractors capture have the shape `[dd]:dd:ddXddd`,
where `X` is any code unit but a line terminator; `convertTimeStampToSeconds` accepts
such a timestamp exactly when `X` is `.`, and then returns `ss + 60*mm + 3600*hh` (with
`hh = 0` when the hours are absent); so a call of an extractor fails with the
malformed-timestamp error exactly when a timing line of one of its blocks has another
separator than `.` in front of the milliseconds. -/
theorem extract_separator (l : Layout) (t : JSString) (blocks : List Block)
    (hblocks : LeftmostBlocks l.blockAt t blocks) :
    (∀ ts ∈ capturedStamps blocks, ∃ c : CapturedStamp, c.WellFormed ∧ ts = c.render) ∧
    (∀ c : CapturedStamp, c.WellFormed →
      (c.sep = 46 → convertTimeStampToSeconds c.render = .ok (some c.seconds)) ∧
      (c.sep ≠ 46 → convertTimeStampToSeconds c.render = .error (.badlyFormatted c.render))) ∧
    ((∃ ts, l.extract t = .error (.badlyFormatted ts)) ↔
      ∃ c : CapturedStamp, c.WellFormed ∧ c.render ∈ capturedStamps blocks ∧ c.sep ≠ 46) := by
  have hshape : ∀ ts ∈ capturedStamps blocks, ∃ c : CapturedStamp, c.WellFormed ∧ ts = c.render :=
    fun ts hts => isStampText_shape ts (capturedStamps_isStampText l t blocks hblocks ts hts)
  refine ⟨hshape, fun c hc => ⟨convert_captured_dot c hc, convert_captured_other c hc⟩, ?_⟩
  rw [extract_of_leftmost l t blocks hblocks]
  constructor
  · rintro ⟨ts, hts⟩
    cases blocks with
    | nil => cases l <;> cases hts
    | cons b bs =>
      simp only at hts
      by_contra hnone
      obtain ⟨recs, hrecs⟩ := mapM_buildChapter_of_none_rejected (b :: bs) (by
        intro ts' hts'
        cases hrej : rejected ts' with
        | false => rfl
        | true =>
          exfalso
          obtain ⟨c, hc, rfl⟩ := hshape ts' hts'
          apply hnone
          refine ⟨c, hc, hts', ?_⟩
          intro hsep
          rw [rejected, convert_captured_dot c hc hsep] at hrej
          cases hrej)
      rw [hrecs] at hts
      cases hts
  · rintro ⟨c, hc, hmem, hsep⟩
    have hrej : rejected c.render = true := by
      rw [rejected, convert_captured_other c hc hsep]
    cases hfind : (capturedStamps blocks).find? rejected with
    | none => exact absurd hrej (by simpa using List.find?_eq_none.mp hfind _ hmem)
    | some ts =>
      refine ⟨ts, ?_⟩
      cases blocks with
      | nil => simp [capturedStamps] at hmem
      | cons b bs => exact mapM_buildChapter_error (b :: bs) ts hfind

set_option maxRecDepth 100000 in
/-- C17 on a transcript whose timing line starts with `00:00:00,000`: the call fails
with the error for that timestamp; and on the same transcript with `00:00:00.000` the
call succeeds. -/
theorem extract_separator_witness :
    ((∃ ts, Layout.titles.extract (js "T\n00:00:00,000 --> 00:00:01.000")
        = .error (.badlyFormatted ts)) ↔
      ∃ c : CapturedStamp, c.WellFormed ∧
        c.render ∈ capturedStamps [⟨js "T", js "00:00:00,000", js "00:00:01.000"⟩] ∧
        c.sep ≠ 46) ∧
    titlesToTimestamps (js "T\n00:00:00,000 --> 00:00:01.000")
      = .error (.badlyFormatted (js "00:00:00,000")) ∧
    titlesToTimestamps (js "T\n00:00:00.000 --> 00:00:01.000")
      = .ok [⟨some (js "T"), some 0, some 1⟩] :=
  ⟨(extract_separator .titles (js "T\n00:00:00,000 --> 00:00:01.000")
      [⟨js "T", js "00:00:00,000", js "00:00:01.000"⟩]
      (leftmost_at_front titleBlockAt _ [] _ _ (by decide)
        (leftmost_nil_of_check _ _ (by decide)))).2.2,
   by decide, by decide⟩


/-! ## Order of timestamps, and titles -/

theorem lex_seconds_arith (h₁ h₂ m₁ m₂ s₁ s₂ f₁ f₂ f₃ k₁ k₂ n₁ n₂ t₁ t₂ g₁ g₂ g₃ : Nat)
    (hh₁ : 48 ≤ h₁ ∧ h₁ ≤ 57) (hh₂ : 48 ≤ h₂ ∧ h₂ ≤ 57) (hm₁ : 48 ≤ m₁ ∧ m₁ ≤ 57)
    (hm₂ : 48 ≤ m₂ ∧ m₂ ≤ 57) (hs₁ : 48 ≤ s₁ ∧ s₁ ≤ 57) (hs₂ : 48 ≤ s₂ ∧ s₂ ≤ 57)
    (hk₁ : 48 ≤ k₁ ∧ k₁ ≤ 57) (hk₂ : 48 ≤ k₂ ∧ k₂ ≤ 57) (hn₁ : 48 ≤ n₁ ∧ n₁ ≤ 57)
    (hn₂ : 48 ≤ n₂ ∧ n₂ ≤ 57) (ht₁ : 48 ≤ t₁ ∧ t₁ ≤ 57) (ht₂ : 48 ≤ t₂ ∧ t₂ ≤ 57)
    (ham : 10 * (m₁ - 48) + (m₂ - 48) ≤ 59) (has : 10 * (s₁ - 48) + (s₂ - 48) ≤ 59)
    (hle : h₁ < k₁ ∨ h₁ = k₁ ∧ (h₂ < k₂ ∨ h₂ = k₂ ∧ (m₁ < n₁ ∨ m₁ = n₁ ∧ (m₂ < n₂ ∨ m₂ = n₂ ∧
      (s₁ < t₁ ∨ s₁ = t₁ ∧ (s₂ < t₂ ∨ s₂ = t₂ ∧ (f₁ < g₁ ∨ f₁ = g₁ ∧ (f₂ < g₂ ∨ f₂ = g₂ ∧
        (f₃ < g₃ ∨ f₃ = g₃ ∧ True))))))))) :
    10 * (s₁ - 48) + (s₂ - 48) + 60 * (10 * (m₁ - 48) + (m₂ - 48)) +
        3600 * (10 * (h₁ - 48) + (h₂ - 48))
      ≤ 10 * (t₁ - 48) + (t₂ - 48) + 60 * (10 * (n₁ - 48) + (n₂ - 48)) +
        3600 * (10 * (k₁ - 48) + (k₂ - 48)) := by
  rcases hle with h | ⟨rfl, h | ⟨rfl, h | ⟨rfl, h | ⟨rfl, h | ⟨rfl, h | ⟨rfl, -⟩⟩⟩⟩⟩⟩ <;> omega

/-- The order of two `hh:mm:ss.mmm` as strings and the order of their seconds. -/
theorem seconds_le_of_lexLe (a b : Stamp) (ha : a.WellFormed) (hb : b.WellFormed)
    (ham : twoDigits a.m₁ a.m₂ ≤ 59) (has : twoDigits a.s₁ a.s₂ ≤ 59)
    (hle : lexLe a.render b.render = true) : a.seconds ≤ b.seconds := by
  obtain ⟨h₁, h₂, m₁, m₂, s₁, s₂, f₁, f₂, f₃⟩ := a
  obtain ⟨k₁, k₂, n₁, n₂, t₁, t₂, g₁, g₂, g₃⟩ := b
  obtain ⟨hh₁, hh₂, hm₁, hm₂, hs₁, hs₂, -, -, -⟩ := ha
  obtain ⟨hk₁, hk₂, hn₁, hn₂, ht₁, ht₂, -, -, -⟩ := hb
  simp only [isDigit_iff] at hh₁ hh₂ hm₁ hm₂ hs₁ hs₂ hk₁ hk₂ hn₁ hn₂ ht₁ ht₂
  simp only [twoDigits] at ham has
  simp only [Stamp.render, lexLe, Bool.or_eq_true, decide_eq_true_eq, Bool.and_eq_true,
    beq_iff_eq, lt_self_iff_false, false_or, true_and] at hle
  simp only [Stamp.seconds, twoDigits]
  exact lex_seconds_arith h₁ h₂ m₁ m₂ s₁ s₂ f₁ f₂ f₃ k₁ k₂ n₁ n₂ t₁ t₂ g₁ g₂ g₃
    hh₁ hh₂ hm₁ hm₂ hs₁ hs₂ hk₁ hk₂ hn₁ hn₂ ht₁ ht₂ ham has hle

/-- C18: for two timestamps `a`, `b` written `hh:mm:ss.mmm` whose minute and second
fields are at most 59, if `a <= b` as strings then
`convertTimeStampToSeconds(a) <= convertTimeStampToSeconds(b)`; without the bound this
fails: `"00:99:00.000" <= "01:00:00.000"`, and the values are 5940 and 3600. -/
theorem convertTimeStampToSeconds_monotone (a b : Stamp)
    (ha : a.WellFormed) (hb : b.WellFormed)
    (ham : twoDigits a.m₁ a.m₂ ≤ 59) (has : twoDigits a.s₁ a.s₂ ≤ 59)
    (_hbm : twoDigits b.m₁ b.m₂ ≤ 59) (_hbs : twoDigits b.s₁ b.s₂ ≤ 59)
    (hle : lexLe a.render b.render = true) :
    (∃ x y, convertTimeStampToSeconds a.render = .ok (some x) ∧
      convertTimeStampToSeconds b.render = .ok (some y) ∧ x ≤ y) ∧
    (lexLe (js "00:99:00.000") (js "01:00:00.000") = true ∧
      convertTimeStampToSeconds (js "00:99:00.000") = .ok (some 5940) ∧
      convertTimeStampToSeconds (js "01:00:00.000") = .ok (some 3600)) :=
  ⟨⟨a.seconds, b.seconds, convert_render a ha, convert_render b hb,
      seconds_le_of_lexLe a b ha hb ham has hle⟩,
    by decide, by decide, by decide⟩

/-- C18 at `"00:59:59.999"` and `"01:00:00.000"`. -/
theorem convertTimeStampToSeconds_monotone_witness :
    ∃ x y, convertTimeStampToSeconds (js "00:59:59.999") = .ok (some x) ∧
      convertTimeStampToSeconds (js "01:00:00.000") = .ok (some y) ∧ x ≤ y :=
  (convertTimeStampToSeconds_monotone ⟨48, 48, 53, 57, 53, 57, 57, 57, 57⟩
    ⟨48, 49, 48, 48, 48, 48, 48, 48, 48⟩ (by decide) (by decide) (by decide) (by decide)
    (by decide) (by decide) (by decide)).1

theorem builtFrom_of_mem (recs : List Chapter) (blocks : List Block)
    (h : List.Forall₂ BuiltFrom recs blocks) :
    ∀ r ∈ recs, ∃ b ∈ blocks, BuiltFrom r b := by
  induction h with
  | nil => simp
  | cons hrb _ ih =>
    intro r hr
    rcases List.mem_cons.mp hr with rfl | hmem
    · exact ⟨_, List.mem_cons_self _ _, hrb⟩
    · obtain ⟨b, hb, hbr⟩ := ih r hmem
      exact ⟨b, List.mem_cons_of_mem _ hb, hbr⟩

/-- C19: for every transcript on which the extractor of a layout succeeds, the text of
every returned record is a string without a line feed, and without any other line
terminator: it is (part of) one line of the transcript, possibly empty. -/
theorem extract_text_one_line (l : Layout) (t : JSString) (recs : List Chapter)
    (h : l.extract t = .ok recs) :
    ∀ r ∈ recs, ∃ s, r.text = some s ∧ 10 ∉ s ∧ NoLineTerminator s := by
  obtain ⟨blocks, hblocks⟩ := leftmostBlocks_exists l t
  have hwf := leftmostBlocks_wf l t blocks hblocks
  rw [extract_of_leftmost l t blocks hblocks] at h
  have hf : List.Forall₂ BuiltFrom recs blocks := by
    cases blocks with
    | nil => cases l <;> cases h
    | cons b bs => exact mapM_buildChapter_ok (b :: bs) recs h
  intro r hr
  obtain ⟨b, hb, hrb⟩ := builtFrom_of_mem recs blocks hf r hr
  exact ⟨b.text, hrb.1, noLineTerminator_not_mem_lf _ (hwf b hb).1, (hwf b hb).1⟩

/-- C19 on a transcript with an empty title line and with text in front of a title:
the call succeeds, and the texts of its two records, `"Chapter 1"` and `""`, have no
line feed. -/
theorem extract_text_one_line_witness :
    titlesToTimestamps
        (js "intro\nChapter 1\n00:00:00.000 --> 00:00:05.000\n\n00:00:05.000 --> 00:00:10.000")
      = .ok [⟨some (js "Chapter 1"), some 0, some 5⟩, ⟨some [], some 5, some 10⟩] ∧
    (∃ s, (⟨some (js "Chapter 1"), some 0, some 5⟩ : Chapter).text = some s ∧ 10 ∉ s ∧
      NoLineTerminator s) ∧
    (∃ s, (⟨some [], some 5, some 10⟩ : Chapter).text = some s ∧ 10 ∉ s ∧
      NoLineTerminator s) :=
  ⟨by decide,
   extract_text_one_line .titles
    (js "intro\nChapter 1\n00:00:00.000 --> 00:00:05.000\n\n00:00:05.000 --> 00:00:10.000")
    [⟨some (js "Chapter 1"), some 0, some 5⟩, ⟨some [], some 5, some 10⟩] (by decide)
    _ (List.mem_cons_self _ _),
   extract_text_one_line .titles
    (js "intro\nChapter 1\n00:00:00.000 --> 00:00:05.000\n\n00:00:05.000 --> 00:00:10.000")
    [⟨some (js "Chapter 1"), some 0, some 5⟩, ⟨some [], some 5, some 10⟩] (by decide)
    _ (List.mem_cons_of_mem _ (List.mem_cons_self _ _))⟩

end AbleTimestamps
